import Mathlib

/-!
# Verification of the Lead-Finder discovery pipeline

A shallow embedding of the pure algorithmic core of the Lead-Finder
repository (`src/leadgen/contacts5.py` and `src/leadgen/app/scraper.py`),
together with theorems settling the specification's claims about it.

The two Python files implement the same discovery pipeline with small
differences; functions whose bodies are textually identical in both files
(`clean_company_name`, `try_common_urls`, `_domain_core`,
`_company_tokens_for_scoring`, `_is_good_domain_for_company`,
`url_priority`, `resolve_url`, `scrape_for_contacts`) are embedded once.
The parts that differ (`WEBSITE_HINTS`, `run_contacts`) are embedded
separately for each file.

Network transport (`requests`) and HTML parsing (`BeautifulSoup`) are
external collaborators; they are modelled as function parameters
(`resolve`, `crawl`, `fetch`, `pageLinks`) supplied to the embedded code,
so all embedded definitions are total and executable.

Python strings are embedded as `List Char` (`Str`) wrapped in `String`;
the regular expressions of the source are embedded as the equivalent
recursive character-list transforms, stage by stage, following the
leftmost-match semantics of `re.split`/`re.sub`.
-/

namespace Leadgen

abbrev Str := List Char

/-- Python `\s` / `str.strip()` whitespace, ASCII range (the inputs handled
by the pipeline are ASCII text). -/
def isSpc (c : Char) : Bool :=
  c = ' ' || c = '\t' || c = '\n' || c = '\r' || c = '\x0b' || c = '\x0c'

def isAsciiAlpha (c : Char) : Bool :=
  ('a' ≤ c && c ≤ 'z') || ('A' ≤ c && c ≤ 'Z')

def isAsciiDigit (c : Char) : Bool :=
  '0' ≤ c && c ≤ '9'

/-- The character class `[a-zA-Z0-9]` of the source's junk-stripping regex. -/
def isAsciiAlnum (c : Char) : Bool :=
  isAsciiAlpha c || isAsciiDigit c

/-- Python `\b` word characters (`\w`), ASCII range. -/
def isWordCh (c : Char) : Bool :=
  isAsciiAlnum c || c = '_'

def lstripSp (s : Str) : Str := s.dropWhile isSpc

def rstripSp (s : Str) : Str := (s.reverse.dropWhile isSpc).reverse

/-- Python `str.strip()`. -/
def stripSp (s : Str) : Str := rstripSp (lstripSp s)

/-- `name = re.split(r"\s*,\s*", name, maxsplit=1)[0]`: everything before
the first comma, with the whitespace run preceding that comma removed
(it belongs to the separator match); unchanged when there is no comma. -/
def commaSplitL (s : Str) : Str :=
  if s.contains ',' then rstripSp (s.takeWhile (fun c => c ≠ ',')) else s

def headIsWordCh : Str → Bool
  | [] => false
  | c :: _ => isWordCh c

/-- `\b` holds after a word character when the next character is absent or
not a word character. -/
def noWordHead : Str → Bool
  | [] => true
  | c :: _ => !isWordCh c

/-- Whether the parent-company-descriptor regex
`\s+(?:part of|a\s+|an\s+)\b` (IGNORECASE) matches starting exactly at the
head of `l`: a nonempty whitespace run, then one of the three descriptor
alternatives, with the word boundary resolved as in `re`. -/
def descrMatchAt (l : Str) : Bool :=
  match l with
  | [] => false
  | c :: _ =>
    isSpc c &&
    (let lp := (l.dropWhile isSpc).map Char.toLower
     (("part of".data.isPrefixOf lp && noWordHead (lp.drop 7))
      || (match lp with
          | 'a' :: 'n' :: d :: r => isSpc d && headIsWordCh ((d :: r).dropWhile isSpc)
          | _ => false)
      || (match lp with
          | 'a' :: d :: r => isSpc d && headIsWordCh ((d :: r).dropWhile isSpc)
          | _ => false)))

/-- `name = re.split(r"\s+(?:part of|a\s+|an\s+)\b", name, maxsplit=1,
flags=re.IGNORECASE)[0]`: the prefix before the leftmost descriptor match,
or the whole string when none matches. -/
def descrSplitL : Str → Str
  | [] => []
  | c :: rest => if descrMatchAt (c :: rest) then [] else c :: descrSplitL rest

/-- The legal-entity suffix alternatives of the source regex, lowered.
Because the regex is anchored `\b\.?$`, a whole match is exactly one of
these words, optionally followed by a final period, at the end of the
string (the `S.A.U.` alternative can never complete a match: after its
trailing period the `\b` demands a word character, which `\.?$` then
refuses). -/
def suffixWords : List Str :=
  ["inc", "llc", "ltd", "limited", "corporation", "corp", "co", "company",
   "gmbh", "s.p.a", "s.r.l"].map String.data

/-- Whether the legal-suffix regex matches from the head of `l` to the end
of the string. -/
def suffixFormAt (l : Str) : Bool :=
  let low := l.map Char.toLower
  suffixWords.any (fun w => low = w || low = w ++ ['.'])

def stripLegalSuffixGo (boundary : Bool) : Str → Str
  | [] => []
  | c :: rest =>
    if boundary && suffixFormAt (c :: rest) then []
    else c :: stripLegalSuffixGo (!isWordCh c) rest

/-- `name = re.sub(r"\b(Inc\.?|LLC|...|S\.r\.l\.?)\b\.?$", "", name,
flags=re.IGNORECASE).strip()`: removes the leftmost end-anchored
legal-suffix match (at most one exists) and strips. -/
def stripLegalSuffixL (s : Str) : Str := stripSp (stripLegalSuffixGo true s)

/-- `name = re.sub(r"[^a-zA-Z0-9\s-]", " ", name)`. -/
def junkL (s : Str) : Str :=
  s.map (fun c => if isAsciiAlnum c || isSpc c || c = '-' then c else ' ')

def collapseSpacesGo (inRun : Bool) : Str → Str
  | [] => []
  | c :: rest =>
    if isSpc c then
      if inRun then collapseSpacesGo true rest
      else ' ' :: collapseSpacesGo true rest
    else c :: collapseSpacesGo false rest

/-- `re.sub(r"\s+", " ", name)`: each maximal whitespace run becomes a
single space. -/
def collapseSpacesL (s : Str) : Str := collapseSpacesGo false s

def collapseHyphensGo (inRun : Bool) : Str → Str
  | [] => []
  | c :: rest =>
    if c = '-' then
      if inRun then collapseHyphensGo true rest
      else '-' :: collapseHyphensGo true rest
    else c :: collapseHyphensGo false rest

/-- `re.sub(r"-{2,}", "-", name)`: each maximal run of two or more hyphens
becomes a single hyphen (a lone hyphen, a run of one, is unchanged either
way). -/
def collapseHyphensL (s : Str) : Str := collapseHyphensGo false s

/-- Scanner for `re.sub(r"\s*-\s*", "-", name)` with `re.sub`'s
left-to-right non-overlapping scan: every hyphen, together with the
whitespace runs immediately around it, becomes a bare hyphen.
`pending` buffers a whitespace run whose fate (kept, or consumed by a
following hyphen) is not yet known; `afterDash` records that the scanner
is consuming the whitespace that follows an emitted hyphen. -/
def hyphenSpaceGo (pending : Str) (afterDash : Bool) : Str → Str
  | [] => if afterDash then [] else pending.reverse
  | c :: rest =>
    if afterDash then
      if isSpc c then hyphenSpaceGo [] true rest
      else if c = '-' then '-' :: hyphenSpaceGo [] true rest
      else c :: hyphenSpaceGo [] false rest
    else
      if c = '-' then '-' :: hyphenSpaceGo [] true rest
      else if isSpc c then hyphenSpaceGo (c :: pending) false rest
      else pending.reverse ++ c :: hyphenSpaceGo [] false rest

def hyphenSpaceL (s : Str) : Str := hyphenSpaceGo [] false s

/-- Embedding of `clean_company_name` (identical in
`contacts5.py` lines 40-61 and `app/scraper.py` lines 34-54): strip, cut
at the first comma, cut at a parent-company descriptor, remove one
trailing legal-entity suffix, replace junk characters by spaces, collapse
whitespace and strip, collapse hyphen runs, and normalize
whitespace-around-hyphen to a bare hyphen. -/
def cleanCompanyL (s : Str) : Str :=
  hyphenSpaceL (collapseHyphensL (stripSp (collapseSpacesL (junkL
    (stripLegalSuffixL (descrSplitL (commaSplitL (stripSp s))))))))

def clean_company_name (s : String) : String := ⟨cleanCompanyL s.data⟩

/-! ## Tokenization and candidate-domain generation (`try_common_urls`) -/

/-- The split class of `re.split(r"[\s-]+", base)`. -/
def isSepCh (c : Char) : Bool := isSpc c || c = '-'

def tokenizeGo (cur : Str) : Str → List Str
  | [] => if cur.isEmpty then [] else [cur.reverse]
  | c :: rest =>
    if isSepCh c then
      if cur.isEmpty then tokenizeGo [] rest
      else cur.reverse :: tokenizeGo [] rest
    else tokenizeGo (c :: cur) rest

/-- `[t for t in re.split(r"[\s-]+", base) if t]`: maximal runs of
non-separator characters, in order. -/
def tokenizeL (s : Str) : List Str := tokenizeGo [] s

/-- `tokens = [t for t in re.split(r"[\s-]+", base) if t]` applied to
`base = clean_company_name(company_name).lower()` (identical in both
source files). -/
def tokensOfName (company : String) : List String :=
  (tokenizeL ((cleanCompanyL company.data).map Char.toLower)).map (fun l => ⟨l⟩)

/-- The `generic_tail` / `generic` word set (identical in both files and in
both functions that use it). -/
def genericTail : List String :=
  ["inc", "llc", "ltd", "limited", "corporation", "corp", "co", "company",
   "group", "international", "systems", "technologies", "technology",
   "solutions", "manufacturing", "automation", "machinery", "machine"]

/-- `strip_generic_tail`: repeatedly drop a trailing generic word. -/
def stripGenericTail (ts : List String) : List String :=
  ((ts.reverse.dropWhile (fun t => genericTail.contains t)).reverse)

/-- The leading run of single-character tokens (`while i < len(tokens) and
len(tokens[i]) == 1: i += 1`). -/
def leadingSingleCount (ts : List String) : Nat :=
  (ts.takeWhile (fun t => t.length = 1)).length

/-- Python `"".join(l)`. -/
def joinAll : List String → String
  | [] => ""
  | x :: rest => x ++ joinAll rest

/-- Python `"-".join(l)`. -/
def dashJoin : List String → String
  | [] => ""
  | [x] => x
  | x :: rest => x ++ "-" ++ dashJoin rest

/-- `acronym = "".join(tokens[:i]) if i >= 2 else None`. -/
def acronymOf (ts : List String) : Option String :=
  if 2 ≤ leadingSingleCount ts then
    some (joinAll (ts.take (leadingSingleCount ts)))
  else none

/-- `rest = tokens[i:] if acronym else tokens[:]`. -/
def restOf (ts : List String) : List String :=
  if (acronymOf ts).isSome then ts.drop (leadingSingleCount ts) else ts

/-- `meaningful = [t for t in strip_generic_tail(tokens) if len(t) >= 3 and
t not in generic_tail]` (the `try_common_urls` variant). -/
def meaningfulOfTokens (ts : List String) : List String :=
  (stripGenericTail ts).filter (fun t => 3 ≤ t.length && !genericTail.contains t)

/-- The `token_lists` accumulated by `try_common_urls`: the full token
list; the tail-stripped list when different and nonempty; the 1- and
2-token truncations unless they collapse to single-letter tokens while
meaningful words exist; and the acronym variants. -/
def tokenListsOf (ts : List String) : List (List String) :=
  let meaningful := meaningfulOfTokens ts
  let stripped := stripGenericTail ts
  let base := [ts] ++ (if stripped ≠ [] ∧ stripped ≠ ts then [stripped] else [])
  let cuts := ([1, 2] : List Nat).filterMap (fun cut =>
    if cut < ts.length then
      let tl := ts.take (ts.length - cut)
      if meaningful ≠ [] ∧ tl.all (fun x => x.length = 1) then none else some tl
    else none)
  let acrLists :=
    match acronymOf ts with
    | some a =>
      let restStripped := stripGenericTail (restOf ts)
      (if restStripped ≠ [] then
        [[a] ++ restStripped.take 1, [a] ++ restStripped.take 2]
       else [])
      ++ (if meaningful = [] then [[a]] else [])
    | none => []
  base ++ cuts ++ acrLists

/-- The `candidates` list of `try_common_urls`: per token-list variant,
filter empties and generic words, then append the concatenated and the
hyphen-joined stems unless the acronym-collision guards skip the
variant. -/
def candidatesOf (ts : List String) : List String :=
  let meaningful := meaningfulOfTokens ts
  let acr := acronymOf ts
  (tokenListsOf ts).flatMap (fun tl0 =>
    let tl := tl0.filter (fun x => x ≠ "" && !genericTail.contains x)
    if tl = [] then []
    else
      let joined := joinAll tl
      let dashed := dashJoin tl
      if meaningful ≠ [] ∧
          ((match acr with
            | some a => a ≠ "" && joined = a
            | none => false)
           || tl.all (fun x => x.length = 1)) then []
      else [joined, dashed])

/-- Python `c.strip("-")`. -/
def stripBothHyphens (s : String) : String :=
  ⟨((s.data.dropWhile (fun c => c = '-')).reverse.dropWhile (fun c => c = '-')).reverse⟩

/-- First-occurrence de-duplication with a `seen` set, as in the source's
`for c in ...: if c not in seen: seen.add(c); out.append(c)` loops. -/
def dedupGo {α : Type} [DecidableEq α] (seen : List α) : List α → List α
  | [] => []
  | x :: rest =>
    if seen.contains x then dedupGo seen rest
    else x :: dedupGo (x :: seen) rest

def dedupPO {α : Type} [DecidableEq α] (l : List α) : List α := dedupGo [] l

/-- The de-duplicated stem list `cand_out` of `try_common_urls`. -/
def candOutOf (ts : List String) : List String :=
  dedupPO (((candidatesOf ts).map stripBothHyphens).filter (fun c => c ≠ ""))

def tldList : List String := [".com", ".net", ".org", ".io", ".co", ".us", ".info"]

/-- The nested scheme × www × stem × suffix generation loop of
`try_common_urls`. -/
def patternsOf (candOut : List String) : List String :=
  candOut.flatMap (fun dom =>
    (["https://", "http://"] : List String).flatMap (fun scheme =>
      (["", "www."] : List String).flatMap (fun w =>
        tldList.map (fun tld => scheme ++ w ++ dom ++ tld)
        ++ [scheme ++ w ++ dom ++ "usa.com", scheme ++ w ++ dom ++ "us.com",
            scheme ++ w ++ dom ++ "-usa.com", scheme ++ w ++ dom ++ "-us.com"])))

/-- Embedding of `try_common_urls` (identical in `contacts5.py` lines
64-175 and `app/scraper.py` lines 57-164). -/
def try_common_urls (company : String) : List String :=
  (dedupPO (patternsOf (candOutOf (tokensOfName company)))).take 220

/-! ## Domain core, scoring and validation -/

/-- Python substring membership `needle in hay` on the underlying
character lists. -/
def isSubL (n : Str) : Str → Bool
  | [] => n.isPrefixOf []
  | c :: rest => n.isPrefixOf (c :: rest) || isSubL n rest

def isSubstrOf (needle hay : String) : Bool := isSubL needle.data hay.data

def lowerStr (s : String) : String := ⟨s.data.map Char.toLower⟩

def startsWithL (s p : String) : Bool := p.data.isPrefixOf s.data

def endsWithL (s p : String) : Bool := p.data.isSuffixOf s.data

/-- The characters allowed in a URL scheme by `urllib.parse`. -/
def isSchemeChar (c : Char) : Bool :=
  isAsciiAlnum c || c = '+' || c = '-' || c = '.'

/-- `urllib.parse.urlparse(url).netloc`: if the text before the first
colon is a valid scheme (nonempty, leading ASCII letter, scheme
characters only), drop it; then, if the remainder starts with `//`, the
netloc runs up to the next `/`, `?` or `#`; otherwise it is empty. -/
def netlocOfL (u : Str) : Str :=
  let pre := u.takeWhile (fun c => c ≠ ':')
  let rest :=
    if pre.length < u.length ∧ 0 < pre.length ∧ headIsAlpha u ∧ pre.all isSchemeChar then
      u.drop (pre.length + 1)
    else u
  match rest with
  | '/' :: '/' :: r => r.takeWhile (fun c => !(c = '/' || c = '?' || c = '#'))
  | _ => []
where headIsAlpha : Str → Bool
  | [] => false
  | c :: _ => isAsciiAlpha c

/-- Embedding of `_domain_core` (identical in `contacts5.py` lines 305-313
and `app/scraper.py` lines 283-290): lowercase, take the netloc, strip a
leading `www.`, and keep the first dot-separated label. -/
def domainCoreL (u : Str) : Str :=
  let n := netlocOfL (u.map Char.toLower)
  let n2 := if "www.".data.isPrefixOf n then n.drop 4 else n
  n2.takeWhile (fun c => c ≠ '.')

def domainCore (u : String) : String := ⟨domainCoreL u.data⟩

/-- Embedding of `_company_tokens_for_scoring` (identical in
`contacts5.py` lines 316-333 and `app/scraper.py` lines 293-323):
`(tokens, meaningful, acronym)`. Note its `meaningful` filters the full
token list, not the tail-stripped one. -/
def company_tokens_for_scoring (company : String) :
    List String × List String × Option String :=
  let tokens := tokensOfName company
  let meaningful := tokens.filter (fun t => 3 ≤ t.length && !genericTail.contains t)
  (tokens, meaningful, acronymOf tokens)

/-- Embedding of `_is_good_domain_for_company` (identical in
`contacts5.py` lines 337-353 and `app/scraper.py` lines 326-338). -/
def is_good_domain_for_company (resolved_url : String)
    (meaningful_tokens : List String) (acronym : Option String) : Bool :=
  let core := domainCore resolved_url
  if core = "" then false
  else if meaningful_tokens ≠ [] then
    if meaningful_tokens.any (fun t => isSubstrOf t core) then
      match acronym with
      | some a => if a ≠ "" && core = a then false else true
      | none => true
    else false
  else true

/-- Embedding of `url_priority` (identical in `contacts5.py` lines 356-396
and `app/scraper.py` lines 341-372); lower scores are probed earlier. -/
def url_priority (u : String) (meaningful_tokens : List String)
    (acronym : Option String) : Int :=
  let ul := lowerStr u
  let httpsAdj : Int := if startsWithL ul "https://" then -50 else 0
  let tldAdj : Int :=
    if endsWithL ul ".com" || isSubstrOf ".com/" ul then -40
    else if endsWithL ul ".net" || isSubstrOf ".net/" ul then -10
    else if endsWithL ul ".org" || isSubstrOf ".org/" ul then -5
    else 0
  let coAdj : Int := if endsWithL ul ".co" || isSubstrOf ".co/" ul then 30 else 0
  let wwwAdj : Int := if isSubstrOf "://www." ul then -2 else 0
  let core := domainCore ul
  let coreAdj : Int :=
    if meaningful_tokens ≠ [] ∧ core ≠ "" then
      -25 * ((meaningful_tokens.filter (fun t => isSubstrOf t core)).length : Int)
      + (if core.length ≤ 4 then 80 else 0)
      + (match acronym with
         | some a => if a ≠ "" && core = a then 120 else 0
         | none => 0)
    else 0
  httpsAdj + tldAdj + coAdj + wwwAdj + coreAdj

/-! ## URL resolution (`resolve_url`)

The HTTP transport is a collaborator: a `head` and a `get` request either
fail (`Except.error`, any `requests` exception) or return the final
status code and post-redirect URL. -/

abbrev HttpResult := Except Unit (Nat × String)

def acceptedCodes : List Nat := [200, 301, 302, 303, 307, 308]

/-- Python `str.rstrip("/")`. -/
def rstripSlash (s : String) : String :=
  ⟨(s.data.reverse.dropWhile (fun c => c = '/')).reverse⟩

/-- Embedding of `resolve_url` (identical in `contacts5.py` lines 274-303
and `app/scraper.py` lines 257-280). The HEAD attempt returns the final
URL on an accepted status; a 403/405 raises and is swallowed by the
`except: pass`, while any other non-accepted status simply falls out of
the `try` block — both paths continue to the GET fallback. The GET
returns the final URL on an accepted status and `None` otherwise; all
transport errors are caught, so the function is total. -/
def resolve_url_model (head get : String → HttpResult) (url : String) :
    Option String :=
  let viaGet : Option String :=
    match get url with
    | .ok (status, finalUrl) =>
      if acceptedCodes.contains status then some (rstripSlash finalUrl) else none
    | .error _ => none
  match head url with
  | .ok (status, finalUrl) =>
    if acceptedCodes.contains status then some (rstripSlash finalUrl)
    else if status = 403 ∨ status = 405 then viaGet
    else viaGet
  | .error _ => viaGet

/-- The resolver as claim C8 words it: the GET fallback is consulted only
after a HEAD transport error or a HEAD status of 403/405; any other
non-accepted HEAD status is terminal. Stated for comparison with
`resolve_url_model`. -/
def resolve_url_per_claim (head get : String → HttpResult) (url : String) :
    Option String :=
  let viaGet : Option String :=
    match get url with
    | .ok (status, finalUrl) =>
      if acceptedCodes.contains status then some (rstripSlash finalUrl) else none
    | .error _ => none
  match head url with
  | .ok (status, finalUrl) =>
    if acceptedCodes.contains status then some (rstripSlash finalUrl)
    else if status = 403 ∨ status = 405 then viaGet
    else none
  | .error _ => viaGet

/-! ## Contact crawler (`scrape_for_contacts`): the fetch schedule

The claims about the crawler concern which URLs it fetches and in what
order, so the embedding records the ordered list of URLs passed to
`fetch`. Page fetching and link extraction are collaborators
(`fetch`, `pageLinks`). -/

def seed_paths : List String :=
  ["", "contact", "contact-us", "contacts", "about", "about-us", "company",
   "support", "customer-service", "help", "sales", "locations", "privacy",
   "impressum", "team", "leadership", "careers"]

def crawlKeywords : List String :=
  ["contact", "about", "support", "sales", "help", "locations", "team",
   "privacy", "impressum"]

/-- Model of `urllib.parse.urljoin` for the reference shapes this crawler
produces: an empty reference returns the base unchanged (`urljoin(b, "")
== b`), an absolute URL replaces the base, and a plain relative path is
appended to a base ending in `/`. (Root-relative `/x` references and
dot-segments are not modelled; they can only affect the
homepage-discovered extra links, which no claim depends on.) -/
def urljoinModel (b p : String) : String :=
  if p = "" then b
  else if isSubstrOf "://" p then p
  else b ++ p

def pyStrip (s : String) : String := ⟨stripSp s.data⟩

/-- The `for page in to_visit: if page in visited: continue; visited.add(page);
fetch(page)` loop, returning the pages actually fetched in order. -/
def scrapeVisitLoop : List String → List String → List String
  | [], _ => []
  | p :: rest, visited =>
    if visited.contains p then scrapeVisitLoop rest visited
    else p :: scrapeVisitLoop rest (p :: visited)

/-- The ordered list of URLs `scrape_for_contacts` passes to its `fetch`
helper (identical control flow in `contacts5.py` lines 178-271 and
`app/scraper.py` lines 167-254): the bare homepage first — never recorded
in `visited` — then the de-duplicated seed paths and up to ten
homepage-discovered keyword links. -/
def scrape_fetch_log (fetch : String → Option String)
    (pageLinks : String → List String) (base_url : String) : List String :=
  let base := rstripSlash base_url
  let seeds := seed_paths.map (fun p => urljoinModel (base ++ "/") p)
  let toVisit :=
    match fetch base with
    | some html =>
      let extra := (pageLinks html).filterMap (fun href0 =>
        let href := pyStrip href0
        if href = "" || startsWithL href "#" then none
        else
          let full := urljoinModel (base ++ "/") href
          if startsWithL full base
              && crawlKeywords.any (fun k => isSubstrOf k (lowerStr full)) then
            some full
          else none)
      seeds ++ extra.take 10
    | none => seeds
  base :: scrapeVisitLoop toVisit []

/-! ## The per-company pipeline and `run_contacts` (both files)

The observable behaviour of the network stack is abstracted as
`resolve : String → Option String` (what `resolve_url` returns for a
candidate) and `crawl : String → List String × List String` (the emails
and phones `scrape_for_contacts` accumulates for a site — sets in the
source, here an enumeration of each set). -/

structure ResultRecord where
  company : String
  website : String
  emails : List String
  phones : List String
  status : String
deriving DecidableEq, Repr

/-- `WEBSITE_HINTS` of `app/scraper.py` (lines 23-26): empty, the example
entry is commented out. -/
def WEBSITE_HINTS_scraper : List (String × String) := []

/-- `WEBSITE_HINTS` of `contacts5.py` (lines 28-31). -/
def WEBSITE_HINTS_contacts5 : List (String × String) :=
  [("A-B-C Packaging Machine Corp.", "https://www.abcpackaging.com/")]

def lookupHint (hints : List (String × String)) (k : String) : Option String :=
  (hints.find? (fun kv => kv.1 = k)).map (fun kv => kv.2)

/-- Python truthiness of the `found_url` variable (`None` and `""` are
falsy). -/
def pyTruthyS : Option String → Bool
  | some s => s ≠ ""
  | none => false

/-- Stable insertion of a keyed element: placed after every element with a
key less than or equal to its own. -/
def insertByKey (x : Int × String) : List (Int × String) → List (Int × String)
  | [] => [x]
  | y :: rest => if x.1 ≤ y.1 then x :: y :: rest else y :: insertByKey x rest

def sortPairs : List (Int × String) → List (Int × String)
  | [] => []
  | x :: rest => insertByKey x (sortPairs rest)

/-- `sorted(urls_to_try, key=lambda x: url_priority(x, meaningful_tokens,
acronym))`: Python's sort is stable and computes each key once; a stable
insertion sort on the decorated list yields the identical ordering. -/
def sortUrlsByPriority (mt : List String) (acr : Option String)
    (urls : List String) : List String :=
  (sortPairs (urls.map (fun u => (url_priority u mt acr, u)))).map (fun kv => kv.2)

/-- The candidate probe loop of `run_contacts` (identical in both files):
skip unresolved candidates, break on the first resolved-and-validated
one, remember the first resolved-but-unvalidated one as fallback.
Returns `(validated hit, fallback)`. -/
def probeLoop (resolve : String → Option String) (good : String → Bool) :
    List String → Option String → Option String × Option String
  | [], fb => (none, fb)
  | u :: rest, fb =>
    match resolve u with
    | none => probeLoop resolve good rest fb
    | some r =>
      if r = "" then probeLoop resolve good rest fb
      else if good r then (some r, fb)
      else probeLoop resolve good rest (if fb = none then some r else fb)

/-- The site-discovery phase shared by both `run_contacts`
implementations: the hint override (resolved once, kept as given if
resolution fails), else candidates probed in ascending priority order,
else the fallback. -/
def findWebsite (hints : List (String × String))
    (resolve : String → Option String) (company : String) : Option String :=
  let afterHint : Option String :=
    match lookupHint hints (pyStrip company) with
    | some hint =>
      if hint = "" then none
      else
        let f := rstripSlash hint
        match resolve f with
        | some r => if r = "" then some f else some r
        | none => some f
    | none => none
  if pyTruthyS afterHint then afterHint
  else
    let tma := company_tokens_for_scoring company
    let mt := tma.2.1
    let acr := tma.2.2
    let sorted := sortUrlsByPriority mt acr (try_common_urls company)
    let res := probeLoop resolve
      (fun r => is_good_domain_for_company r mt acr) sorted none
    match res.1 with
    | some r => some r
    | none =>
      match res.2 with
      | some f => some f
      | none => afterHint

/-- Lexicographic (code-point) comparison, Python `<=` on strings. -/
def strLeB : Str → Str → Bool
  | [], _ => true
  | _ :: _, [] => false
  | a :: xs, b :: ys => if a < b then true else if b < a then false else strLeB xs ys

def insertStr (x : String) : List String → List String
  | [] => [x]
  | y :: rest => if strLeB x.data y.data then x :: y :: rest else y :: insertStr x rest

/-- Python `sorted` on a list of strings. -/
def sortStringsAsc : List String → List String
  | [] => []
  | x :: rest => insertStr x (sortStringsAsc rest)

/-- The per-company body of `run_contacts` in `app/scraper.py` (lines
390-430): hint/candidates discovery, then crawl; emails and phones are
sorted; status is upgraded to "found contacts" when any email **or**
phone was harvested. -/
def processCompanyScraper (resolve : String → Option String)
    (crawl : String → List String × List String) (company : String) :
    ResultRecord :=
  let found := findWebsite WEBSITE_HINTS_scraper resolve company
  if pyTruthyS found then
    let w := found.getD ""
    let cs := crawl w
    let emails := sortStringsAsc cs.1
    let phones := sortStringsAsc cs.2
    { company := company, website := w, emails := emails, phones := phones,
      status := if emails ≠ [] ∨ phones ≠ [] then "found contacts" else "found website" }
  else
    { company := company, website := "", emails := [], phones := [],
      status := "not found" }

/-- The per-company body of `run_contacts` in `contacts5.py` (lines
417-476): same discovery, but emails and phones are emitted in set
order (unsorted), and only a nonempty email list upgrades the status to
"found contacts" — `if result['emails']:` — phones alone do not. -/
def processCompanyContacts5 (resolve : String → Option String)
    (crawl : String → List String × List String) (company : String) :
    ResultRecord :=
  let found := findWebsite WEBSITE_HINTS_contacts5 resolve company
  if pyTruthyS found then
    let w := found.getD ""
    let cs := crawl w
    { company := company, website := w, emails := cs.1, phones := cs.2,
      status := if cs.1 ≠ [] then "found contacts" else "found website" }
  else
    { company := company, website := "", emails := [], phones := [],
      status := "not found" }

/-- The two input forms `run_contacts` accepts. -/
inductive CompaniesInput where
  | text (s : String)
  | list (l : List String)

def isLineBreak (c : Char) : Bool :=
  c = '\n' || c = '\r' || c = '\x0b' || c = '\x0c' || c = '\x1c' ||
  c = '\x1d' || c = '\x1e' || c = '\x85' || c = '\u2028' || c = '\u2029'

def splitlinesGo (cur : Str) : Str → List Str
  | [] => if cur.isEmpty then [] else [cur.reverse]
  | '\r' :: '\n' :: rest => cur.reverse :: splitlinesGo [] rest
  | c :: rest =>
    if isLineBreak c then cur.reverse :: splitlinesGo [] rest
    else splitlinesGo (c :: cur) rest

/-- Python `str.splitlines()`. -/
def splitlinesL (s : Str) : List Str := splitlinesGo [] s

/-- The input cleaning shared by both `run_contacts` implementations:
`[c.strip() for c in companies.splitlines() if c.strip()]` for a string,
`[str(c).strip() for c in companies if str(c).strip()]` for a list. -/
def retainedNames : CompaniesInput → List String
  | .text s => (splitlinesL s.data).filterMap (fun l =>
      let t : String := ⟨stripSp l⟩
      if t = "" then none else some t)
  | .list l => l.filterMap (fun c =>
      let t := pyStrip c
      if t = "" then none else some t)

/-- `run_contacts` of `app/scraper.py` (lines 375-435): clean the input
list, truncate to `max(0, int(max_companies))`, and emit one
`ResultRecord` per retained company, in order. -/
def run_contacts_scraper (resolve : String → Option String)
    (crawl : String → List String × List String)
    (companies : CompaniesInput) (max_companies : Int) : List ResultRecord :=
  ((retainedNames companies).take (max 0 max_companies).toNat).map
    (processCompanyScraper resolve crawl)

/-- The results list `run_contacts` of `contacts5.py` (lines 398-497)
assembles before writing it to CSV: one `ResultRecord` per retained
company, no truncation. -/
def run_contacts5 (resolve : String → Option String)
    (crawl : String → List String × List String)
    (companies : CompaniesInput) : List ResultRecord :=
  (retainedNames companies).map (processCompanyContacts5 resolve crawl)

end Leadgen

section CleanSanity

open Leadgen

example : clean_company_name "A-B-C Packaging Machine Corp." = "A-B-C Packaging Machine" := by decide
example : clean_company_name "ACO, Inc" = "ACO" := by decide
example : clean_company_name "ACSIS, part of Antares Vision Group" = "ACSIS" := by decide
example : clean_company_name "ADCO Manufacturing, a Massman Company" = "ADCO Manufacturing" := by decide
example : clean_company_name "Foo Corp Inc" = "Foo Corp" := by decide
example : clean_company_name "Foo Corp" = "Foo" := by decide
example : clean_company_name "X@a b" = "X a b" := by decide
example : clean_company_name "a- -b" = "a--b" := by decide
example : clean_company_name "A - B Co" = "A-B" := by decide

example : tokensOfName "A-B-C Packaging Machine Corp." = ["a", "b", "c", "packaging", "machine"] := by decide
example : acronymOf ["a", "b", "c", "packaging"] = some "abc" := by decide
example : meaningfulOfTokens ["a", "b", "c", "packaging", "machine"] = ["packaging"] := by decide
example : candOutOf (tokensOfName "A-B-C Packaging") = ["abcpackaging", "a-b-c-packaging", "abc-packaging"] := by decide
set_option maxRecDepth 4000 in
example : (try_common_urls "Testco").length = 44 := by decide

end CleanSanity

namespace Leadgen

/-! ## Supporting lemmas -/

theorem mem_dedupGo_not_seen {α : Type} [DecidableEq α] :
    ∀ (l seen : List α) (x : α), x ∈ dedupGo seen l → x ∉ seen := by
  intro l
  induction l with
  | nil => intro seen x h; simp [dedupGo] at h
  | cons y rest ih =>
    intro seen x h
    by_cases hy : seen.contains y
    · rw [dedupGo, if_pos hy] at h
      exact ih seen x h
    · rw [dedupGo, if_neg hy] at h
      rcases List.mem_cons.mp h with h1 | h1
      · subst h1
        simpa using hy
      · intro hx
        exact ih (y :: seen) x h1 (List.mem_cons_of_mem y hx)

theorem dedupGo_nodup {α : Type} [DecidableEq α] :
    ∀ (l seen : List α), (dedupGo seen l).Nodup := by
  intro l
  induction l with
  | nil => intro seen; simp [dedupGo]
  | cons y rest ih =>
    intro seen
    by_cases hy : seen.contains y
    · rw [dedupGo, if_pos hy]; exact ih seen
    · rw [dedupGo, if_neg hy]
      refine List.nodup_cons.mpr ⟨?_, ih (y :: seen)⟩
      intro hmem
      exact mem_dedupGo_not_seen rest (y :: seen) y hmem (List.mem_cons_self y seen)

theorem dedupPO_nodup {α : Type} [DecidableEq α] (l : List α) :
    (dedupPO l).Nodup := dedupGo_nodup l []

theorem mem_dedupGo_mem {α : Type} [DecidableEq α] :
    ∀ (l seen : List α) (x : α), x ∈ dedupGo seen l → x ∈ l := by
  intro l
  induction l with
  | nil => intro seen x h; simp [dedupGo] at h
  | cons y rest ih =>
    intro seen x h
    by_cases hy : seen.contains y
    · rw [dedupGo, if_pos hy] at h
      exact List.mem_cons_of_mem y (ih seen x h)
    · rw [dedupGo, if_neg hy] at h
      rcases List.mem_cons.mp h with h1 | h1
      · exact h1 ▸ List.mem_cons_self y rest
      · exact List.mem_cons_of_mem y (ih (y :: seen) x h1)

theorem mem_dedupPO_mem {α : Type} [DecidableEq α] {l : List α} {x : α}
    (h : x ∈ dedupPO l) : x ∈ l := mem_dedupGo_mem l [] x h

theorem insertStr_perm (x : String) :
    ∀ l : List String, (insertStr x l).Perm (x :: l) := by
  intro l
  induction l with
  | nil => simp [insertStr]
  | cons y rest ih =>
    rw [insertStr]
    split
    · exact List.Perm.refl _
    · exact (List.Perm.cons y ih).trans (List.Perm.swap x y rest)

theorem sortStringsAsc_perm :
    ∀ l : List String, (sortStringsAsc l).Perm l := by
  intro l
  induction l with
  | nil => simp [sortStringsAsc]
  | cons x rest ih =>
    rw [sortStringsAsc]
    exact (insertStr_perm x (sortStringsAsc rest)).trans (ih.cons x)

theorem rstripSlash_of_no_trailing_slash (s : String)
    (h : endsWithL s "/" = false) : rstripSlash s = s := by
  have hl : (s.data.reverse.dropWhile (fun c => c = '/')).reverse = s.data := by
    cases hd : s.data.reverse with
    | nil => simpa using congrArg List.reverse hd
    | cons c rest =>
      rw [endsWithL] at h
      rw [List.isSuffixOf, hd] at h
      have hcs : ¬(c = '/') := by
        intro hc
        subst hc
        simp [List.isPrefixOf] at h
      rw [List.dropWhile_cons, if_neg (by simpa using hcs)]
      simpa using congrArg List.reverse hd.symm
  show (⟨(s.data.reverse.dropWhile (fun c => c = '/')).reverse⟩ : String) = s
  rw [hl]

end Leadgen

namespace Leadgen

theorem filterMap_strip_eq_filter {α : Type} (f : α → String) (l : List α) :
    l.filterMap (fun c => if f c = "" then none else some (f c))
      = (l.map f).filter (fun c => c ≠ "") := by
  induction l with
  | nil => rfl
  | cons x rest ih =>
    simp only [List.filterMap_cons, List.map_cons, List.filter_cons]
    by_cases hx : f x = ""
    · simp [hx, ih]
    · simp [hx, ih]

theorem processCompanyScraper_company (resolve : String → Option String)
    (crawl : String → List String × List String) (c : String) :
    (processCompanyScraper resolve crawl c).company = c := by
  rw [processCompanyScraper]
  split <;> rfl

/-- C9: `run_contacts` in `app/scraper.py` filters blank entries, trims
each retained name, truncates at `max(0, max_companies)`, and returns
exactly one `ResultRecord` per retained company name, in input order,
for both accepted input forms. -/
theorem c9_run_contacts_batch_shape (resolve : String → Option String)
    (crawl : String → List String × List String)
    (companies : CompaniesInput) (mc : Int) :
    ((run_contacts_scraper resolve crawl companies mc).map (fun r => r.company)
       = (retainedNames companies).take (max 0 mc).toNat)
    ∧ (run_contacts_scraper resolve crawl companies mc).length ≤ (max 0 mc).toNat
    ∧ (∀ s : String, retainedNames (.text s)
         = ((splitlinesL s.data).map (fun l => (⟨stripSp l⟩ : String))).filter
             (fun c => c ≠ ""))
    ∧ (∀ l : List String, retainedNames (.list l)
         = (l.map pyStrip).filter (fun c => c ≠ "")) := by
  refine ⟨?_, ?_, ?_, ?_⟩
  · rw [run_contacts_scraper, List.map_map]
    exact (List.map_congr_left
      (fun x _ => processCompanyScraper_company resolve crawl x)).trans
      (List.map_id _)
  · rw [run_contacts_scraper, List.length_map]
    exact List.length_take_le _ _
  · intro s
    exact filterMap_strip_eq_filter (fun l => (⟨stripSp l⟩ : String)) (splitlinesL s.data)
  · intro l
    exact filterMap_strip_eq_filter pyStrip l

/-- C5: for every company name the candidate URL list is capped at 220
entries and contains no duplicate URL. -/
theorem c5_candidate_list_bounded_nodup (company : String) :
    (try_common_urls company).length ≤ 220 ∧ (try_common_urls company).Nodup := by
  constructor
  · exact List.length_take_le _ _
  · exact List.Nodup.sublist (List.take_sublist _ _) (dedupPO_nodup _)

/-- C7: the domain validator accepts exactly the resolved URLs whose core
(first host label, `www.` stripped) is nonempty and, when meaningful
tokens exist, contains some meaningful token as a substring without being
exactly the acronym; with no meaningful tokens any nonempty core is
accepted. -/
theorem c7_validator_characterisation (url : String) (mt : List String)
    (acr : Option String) :
    is_good_domain_for_company url mt acr = true ↔
      (domainCore url ≠ "" ∧
        (mt = [] ∨
          ((∃ t ∈ mt, isSubstrOf t (domainCore url) = true) ∧
           ∀ a, acr = some a → domainCore url ≠ a))) := by
  simp only [is_good_domain_for_company]
  by_cases hcore : domainCore url = ""
  · simp [hcore]
  · simp only [if_neg hcore]
    by_cases hmt : mt = []
    · subst hmt
      simp [hcore]
    · simp only [if_pos hmt]
      by_cases hany : mt.any (fun t => isSubstrOf t (domainCore url)) = true
      · simp only [hany, if_pos]
        rw [List.any_eq_true] at hany
        cases acr with
        | none =>
          simp only [true_iff]
          exact ⟨hcore, Or.inr ⟨hany, by intro a h; cases h⟩⟩
        | some a =>
          by_cases hba : (a ≠ "" && domainCore url = a) = true
          · simp only [hba, if_pos]
            rw [Bool.and_eq_true, decide_eq_true_eq, decide_eq_true_eq] at hba
            constructor
            · intro h; cases h
            · rintro ⟨-, h | ⟨-, hall⟩⟩
              · exact absurd h hmt
              · exact absurd hba.2 (hall a rfl)
          · have hba' : (a ≠ "" && domainCore url = a) = false := by
              cases hb : (a ≠ "" && domainCore url = a) with
              | true => exact absurd hb hba
              | false => rfl
            simp only [hba', Bool.false_eq_true, if_neg (by simp : ¬False), true_iff]
            refine ⟨hcore, Or.inr ⟨hany, ?_⟩⟩
            intro b hb hcb
            injection hb with hab
            subst hab
            rw [Bool.and_eq_true, decide_eq_true_eq, decide_eq_true_eq] at hba
            rcases not_and_or.mp hba with h1 | h2
            · simp only [ne_eq, not_not] at h1
              subst h1
              exact hcore hcb
            · exact h2 hcb
      · have hany' : mt.any (fun t => isSubstrOf t (domainCore url)) = false := by
          cases hb : mt.any (fun t => isSubstrOf t (domainCore url)) with
          | true => exact absurd hb hany
          | false => rfl
        simp only [hany', Bool.false_eq_true, if_neg (by simp : ¬False)]
        constructor
        · intro h; cases h
        · rintro ⟨-, h | ⟨⟨t, ht, hsub⟩, -⟩⟩
          · exact absurd h hmt
          · rw [List.any_eq_true] at hany
            exact absurd ⟨t, ht, hsub⟩ hany


theorem bool_true_false_absurd {b : Bool} (h1 : b = true) (h2 : b = false) :
    False := by
  rw [h1] at h2
  exact Bool.noConfusion h2

/-- C8 (amended): the resolver returns the rstripped final URL exactly
when HEAD yields an accepted status, or — after **any** unsuccessful HEAD
outcome (a transport error or any non-accepted status; 403/405 is merely
the path that raises into the `except`) — the GET fallback yields an
accepted status. The model is a total function, so no exception
propagates. -/
theorem c8_resolver_amended (head get : String → HttpResult) (url r : String) :
    resolve_url_model head get url = some r ↔
      ((∃ s f, head url = .ok (s, f) ∧ acceptedCodes.contains s = true
          ∧ r = rstripSlash f) ∨
       ((∀ s f, head url = .ok (s, f) → acceptedCodes.contains s = false) ∧
        (∃ s f, get url = .ok (s, f) ∧ acceptedCodes.contains s = true
          ∧ r = rstripSlash f))) := by
  rw [resolve_url_model]
  cases hh : head url with
  | ok p =>
    obtain ⟨s, f⟩ := p
    by_cases hs : acceptedCodes.contains s = true
    · simp only [hs, if_pos]
      constructor
      · intro h
        refine Or.inl ⟨s, f, rfl, hs, ?_⟩
        injection h with h1
        exact h1.symm
      · rintro (⟨a, b, hab, hacc, hr⟩ | ⟨hno, -⟩)
        · injection hab with hp
          injection hp with h1 h2
          subst h1
          subst h2
          rw [hr]
        · exact absurd (hno s f rfl) (by rw [hs]; exact Bool.noConfusion)
    · have hsf : acceptedCodes.contains s = false := by
        cases hb : acceptedCodes.contains s with
        | true => exact absurd hb hs
        | false => rfl
      simp only [hsf, Bool.false_eq_true, if_neg (by simp : ¬False), ite_self]
      cases hg : get url with
      | ok q =>
        obtain ⟨a', b'⟩ := q
        by_cases hs' : acceptedCodes.contains a' = true
        · simp only [hs', if_pos]
          constructor
          · intro h
            injection h with h1
            refine Or.inr ⟨?_, a', b', rfl, hs', h1.symm⟩
            intro x y hxy
            injection hxy with hp
            injection hp with hx hy
            subst hx
            exact hsf
          · rintro (⟨a, b, hab, hacc, -⟩ | ⟨-, a, b, hab, hacc, hr⟩)
            · injection hab with hp
              injection hp with h1 h2
              subst h1
              exact absurd (bool_true_false_absurd hacc hsf) not_false
            · injection hab with hp
              injection hp with h1 h2
              subst h1
              subst h2
              rw [hr]
        · have hsf' : acceptedCodes.contains a' = false := by
            cases hb : acceptedCodes.contains a' with
            | true => exact absurd hb hs'
            | false => rfl
          simp only [hsf', Bool.false_eq_true, if_neg (by simp : ¬False)]
          constructor
          · intro h
            exact Option.noConfusion h
          · rintro (⟨a, b, hab, hacc, -⟩ | ⟨-, a, b, hab, hacc, -⟩)
            · injection hab with hp
              injection hp with h1 h2
              subst h1
              exact absurd (bool_true_false_absurd hacc hsf) not_false
            · injection hab with hp
              injection hp with h1 h2
              subst h1
              exact absurd (bool_true_false_absurd hacc hsf') not_false
      | error e' =>
        constructor
        · intro h
          exact Option.noConfusion h
        · rintro (⟨a, b, hab, hacc, -⟩ | ⟨-, a, b, hab, -, -⟩)
          · injection hab with hp
            injection hp with h1 h2
            subst h1
            exact absurd (bool_true_false_absurd hacc hsf) not_false
          · exact Except.noConfusion hab
  | error e =>
    cases hg : get url with
    | ok q =>
      obtain ⟨a', b'⟩ := q
      by_cases hs' : acceptedCodes.contains a' = true
      · simp only [hs', if_pos]
        constructor
        · intro h
          injection h with h1
          refine Or.inr ⟨?_, a', b', rfl, hs', h1.symm⟩
          intro x y hxy
          exact Except.noConfusion hxy
        · rintro (⟨a, b, hab, -, -⟩ | ⟨-, a, b, hab, hacc, hr⟩)
          · exact Except.noConfusion hab
          · injection hab with hp
            injection hp with h1 h2
            subst h1
            subst h2
            rw [hr]
      · have hsf' : acceptedCodes.contains a' = false := by
          cases hb : acceptedCodes.contains a' with
          | true => exact absurd hb hs'
          | false => rfl
        simp only [hsf', Bool.false_eq_true, if_neg (by simp : ¬False)]
        constructor
        · intro h
          exact Option.noConfusion h
        · rintro (⟨a, b, hab, -, -⟩ | ⟨-, a, b, hab, hacc, -⟩)
          · exact Except.noConfusion hab
          · injection hab with hp
            injection hp with h1 h2
            subst h1
            exact absurd (bool_true_false_absurd hacc hsf') not_false
    | error e' =>
      constructor
      · intro h
        exact Option.noConfusion h
      · rintro (⟨a, b, hab, -, -⟩ | ⟨-, a, b, hab, -, -⟩)
        · exact Except.noConfusion hab
        · exact Except.noConfusion hab

/-- C8 counterexample: on a HEAD status of 404 — neither accepted nor one
of the 403/405 "retry" codes — the code still falls through to GET and
returns its resolved URL, where the claim's protocol (GET only after a
HEAD transport error or HEAD 403/405) yields `None`. -/
theorem c8_counterexample :
    resolve_url_model (fun _ => Except.ok (404, "http://dest.example/"))
        (fun _ => Except.ok (200, "http://dest.example/")) "http://seed.example"
      = some "http://dest.example"
    ∧ resolve_url_per_claim (fun _ => Except.ok (404, "http://dest.example/"))
        (fun _ => Except.ok (200, "http://dest.example/")) "http://seed.example"
      = none
    ∧ acceptedCodes.contains 404 = false
    ∧ ¬(404 = 403 ∨ 404 = 405) := by
  refine ⟨?_, ?_, ?_, ?_⟩ <;> decide

/-- C10: for a base URL without a trailing slash, the crawler's first two
fetches are the bare base URL (the homepage fetch, which is never
recorded in `visited`) followed by `base ++ "/"` (the empty seed path) —
two distinct URL strings naming the same homepage. -/
theorem c10_homepage_fetched_twice (fetch : String → Option String)
    (pageLinks : String → List String) (base_url html : String)
    (hslash : endsWithL base_url "/" = false)
    (hfetch : fetch base_url = some html) :
    (scrape_fetch_log fetch pageLinks base_url).take 2
      = [base_url, base_url ++ "/"]
    ∧ base_url ≠ base_url ++ "/" := by
  have hb : rstripSlash base_url = base_url :=
    rstripSlash_of_no_trailing_slash _ hslash
  constructor
  · rw [scrape_fetch_log, hb, hfetch]
    rw [show seed_paths = "" :: seed_paths.tail from rfl]
    simp only [List.map_cons, List.cons_append]
    rw [show urljoinModel (base_url ++ "/") "" = base_url ++ "/" from by
      rw [urljoinModel]; simp]
    rw [scrapeVisitLoop]
    simp [List.take]
  · intro h
    have hlen := congrArg String.length h
    rw [String.length_append] at hlen
    have h1 : "/".length = 1 := rfl
    omega

/-- Witness for C10 at a concrete transport and base URL. -/
theorem c10_homepage_fetched_twice_witness :
    (endsWithL "http://wx.example" "/" = false
      ∧ (fun (_ : String) => some "page") "http://wx.example" = some "page")
    ∧ ((scrape_fetch_log (fun _ => some "page") (fun _ => [])
          "http://wx.example").take 2
        = ["http://wx.example", "http://wx.example" ++ "/"]
      ∧ "http://wx.example" ≠ "http://wx.example" ++ "/") :=
  ⟨⟨by decide, rfl⟩,
   c10_homepage_fetched_twice (fun _ => some "page") (fun _ => [])
     "http://wx.example" "page" (by decide) rfl⟩


theorem scraper_status_spec (resolve : String → Option String)
    (crawl : String → List String × List String) (company : String) :
    ((processCompanyScraper resolve crawl company).website = "" →
      (processCompanyScraper resolve crawl company).status = "not found")
    ∧ ((processCompanyScraper resolve crawl company).website ≠ "" →
      (processCompanyScraper resolve crawl company).emails = [] →
      (processCompanyScraper resolve crawl company).phones = [] →
      (processCompanyScraper resolve crawl company).status = "found website")
    ∧ ((processCompanyScraper resolve crawl company).website ≠ "" →
      ((processCompanyScraper resolve crawl company).emails ≠ [] ∨
       (processCompanyScraper resolve crawl company).phones ≠ []) →
      (processCompanyScraper resolve crawl company).status = "found contacts") := by
  cases hf : findWebsite WEBSITE_HINTS_scraper resolve company with
  | none =>
    rw [processCompanyScraper, hf]
    rw [if_neg (show ¬pyTruthyS none = true from by simp [pyTruthyS])]
    exact ⟨fun _ => rfl, fun h _ _ => absurd rfl h, fun h _ => absurd rfl h⟩
  | some s =>
    by_cases hs : s = ""
    · subst hs
      rw [processCompanyScraper, hf]
      rw [if_neg (show ¬pyTruthyS (some "") = true from by simp [pyTruthyS])]
      exact ⟨fun _ => rfl, fun h _ _ => absurd rfl h, fun h _ => absurd rfl h⟩
    · rw [processCompanyScraper, hf]
      rw [if_pos (show pyTruthyS (some s) = true from by simp [pyTruthyS, hs])]
      refine ⟨fun h => absurd h hs, fun _ he hp => ?_, fun _ hep => ?_⟩
      · have he' : sortStringsAsc (crawl ((some s).getD "")).1 = [] := he
        have hp' : sortStringsAsc (crawl ((some s).getD "")).2 = [] := hp
        exact if_neg (by rw [he', hp']; simp)
      · rcases hep with h | h
        · exact if_pos (Or.inl h)
        · exact if_pos (Or.inr h)

theorem contacts5_status_spec (resolve : String → Option String)
    (crawl : String → List String × List String) (company : String) :
    ((processCompanyContacts5 resolve crawl company).website = "" →
      (processCompanyContacts5 resolve crawl company).status = "not found")
    ∧ ((processCompanyContacts5 resolve crawl company).website ≠ "" →
      (processCompanyContacts5 resolve crawl company).emails = [] →
      (processCompanyContacts5 resolve crawl company).status = "found website")
    ∧ ((processCompanyContacts5 resolve crawl company).website ≠ "" →
      (processCompanyContacts5 resolve crawl company).emails ≠ [] →
      (processCompanyContacts5 resolve crawl company).status = "found contacts") := by
  cases hf : findWebsite WEBSITE_HINTS_contacts5 resolve company with
  | none =>
    rw [processCompanyContacts5, hf]
    rw [if_neg (show ¬pyTruthyS none = true from by simp [pyTruthyS])]
    exact ⟨fun _ => rfl, fun h _ => absurd rfl h, fun h _ => absurd rfl h⟩
  | some s =>
    by_cases hs : s = ""
    · subst hs
      rw [processCompanyContacts5, hf]
      rw [if_neg (show ¬pyTruthyS (some "") = true from by simp [pyTruthyS])]
      exact ⟨fun _ => rfl, fun h _ => absurd rfl h, fun h _ => absurd rfl h⟩
    · rw [processCompanyContacts5, hf]
      rw [if_pos (show pyTruthyS (some s) = true from by simp [pyTruthyS, hs])]
      refine ⟨fun h => absurd h hs, fun _ he => ?_, fun _ hne => ?_⟩
      · exact if_neg (fun h => h he)
      · exact if_pos hne

/-- C1 (amended): in `app/scraper.py` the status is "not found" with no
site, "found website" with a site but neither emails nor phones, and
"found contacts" when at least one email **or** phone was harvested; in
`contacts5.py` the upgrade to "found contacts" requires at least one
email — a phones-only harvest leaves the status at "found website". -/
theorem c1_status_amended (resolve : String → Option String)
    (crawl : String → List String × List String) (company : String) :
    (((processCompanyScraper resolve crawl company).website = "" →
        (processCompanyScraper resolve crawl company).status = "not found")
     ∧ ((processCompanyScraper resolve crawl company).website ≠ "" →
        (processCompanyScraper resolve crawl company).emails = [] →
        (processCompanyScraper resolve crawl company).phones = [] →
        (processCompanyScraper resolve crawl company).status = "found website")
     ∧ ((processCompanyScraper resolve crawl company).website ≠ "" →
        ((processCompanyScraper resolve crawl company).emails ≠ [] ∨
         (processCompanyScraper resolve crawl company).phones ≠ []) →
        (processCompanyScraper resolve crawl company).status = "found contacts"))
    ∧ (((processCompanyContacts5 resolve crawl company).website = "" →
        (processCompanyContacts5 resolve crawl company).status = "not found")
     ∧ ((processCompanyContacts5 resolve crawl company).website ≠ "" →
        (processCompanyContacts5 resolve crawl company).emails = [] →
        (processCompanyContacts5 resolve crawl company).status = "found website")
     ∧ ((processCompanyContacts5 resolve crawl company).website ≠ "" →
        (processCompanyContacts5 resolve crawl company).emails ≠ [] →
        (processCompanyContacts5 resolve crawl company).status = "found contacts")) :=
  ⟨scraper_status_spec resolve crawl company,
   contacts5_status_spec resolve crawl company⟩

set_option maxRecDepth 10000 in
/-- C1 counterexample: in `contacts5.py`, a company resolved through the
override table whose crawl harvests one phone and no email ends with
status "found website", not the "found contacts" the claim requires for
"at least one email or phone". -/
theorem c1_counterexample :
    (processCompanyContacts5 (fun u => some u) (fun _ => ([], ["(555) 123-4567"]))
        "A-B-C Packaging Machine Corp.").website = "https://www.abcpackaging.com"
    ∧ (processCompanyContacts5 (fun u => some u) (fun _ => ([], ["(555) 123-4567"]))
        "A-B-C Packaging Machine Corp.").phones = ["(555) 123-4567"]
    ∧ (processCompanyContacts5 (fun u => some u) (fun _ => ([], ["(555) 123-4567"]))
        "A-B-C Packaging Machine Corp.").emails = []
    ∧ (processCompanyContacts5 (fun u => some u) (fun _ => ([], ["(555) 123-4567"]))
        "A-B-C Packaging Machine Corp.").status = "found website" := by
  refine ⟨?_, ?_, ?_, ?_⟩ <;> decide


theorem findWebsite_hints_irrelevant (resolve : String → Option String)
    (company : String) (hints : List (String × String))
    (h : lookupHint hints (pyStrip company) = none) :
    findWebsite hints resolve company
      = findWebsite WEBSITE_HINTS_scraper resolve company := by
  rw [findWebsite, findWebsite, h,
      show lookupHint WEBSITE_HINTS_scraper (pyStrip company) = none from rfl]

theorem sortStringsAsc_eq_nil_iff (l : List String) :
    sortStringsAsc l = [] ↔ l = [] := by
  constructor
  · intro h
    exact ((h ▸ sortStringsAsc_perm l : ([] : List String).Perm l).symm).eq_nil
  · intro h
    rw [h]
    rfl

/-- C2 (amended): for a company absent from the `contacts5.py` override
table (the `app/scraper.py` table is empty) and identical transport and
crawl behaviour, the two `run_contacts` implementations agree on the
company, the website, and the email and phone collections up to ordering
(`app/scraper.py` sorts them, `contacts5.py` emits set order); their
statuses agree except exactly when a site was found and the crawl
harvested phones but no emails, where `app/scraper.py` reports
"found contacts" and `contacts5.py` "found website". -/
theorem c2_equiv_amended (resolve : String → Option String)
    (crawl : String → List String × List String) (company : String)
    (h : lookupHint WEBSITE_HINTS_contacts5 (pyStrip company) = none) :
    (processCompanyScraper resolve crawl company).company
        = (processCompanyContacts5 resolve crawl company).company
    ∧ (processCompanyScraper resolve crawl company).website
        = (processCompanyContacts5 resolve crawl company).website
    ∧ (processCompanyScraper resolve crawl company).emails.Perm
        (processCompanyContacts5 resolve crawl company).emails
    ∧ (processCompanyScraper resolve crawl company).phones.Perm
        (processCompanyContacts5 resolve crawl company).phones
    ∧ ((processCompanyScraper resolve crawl company).status
          = (processCompanyContacts5 resolve crawl company).status ↔
        ¬((processCompanyContacts5 resolve crawl company).website ≠ ""
          ∧ (processCompanyContacts5 resolve crawl company).emails = []
          ∧ (processCompanyContacts5 resolve crawl company).phones ≠ [])) := by
  have hfw := findWebsite_hints_irrelevant resolve company WEBSITE_HINTS_contacts5 h
  rw [processCompanyScraper, processCompanyContacts5, hfw]
  cases hf : findWebsite WEBSITE_HINTS_scraper resolve company with
  | none =>
    rw [if_neg (show ¬pyTruthyS none = true from by simp [pyTruthyS]),
        if_neg (show ¬pyTruthyS none = true from by simp [pyTruthyS])]
    refine ⟨rfl, rfl, List.Perm.refl _, List.Perm.refl _, ?_⟩
    exact iff_of_true rfl (fun hc => hc.1 rfl)
  | some s =>
    by_cases hs : s = ""
    · subst hs
      rw [if_neg (show ¬pyTruthyS (some "") = true from by simp [pyTruthyS]),
          if_neg (show ¬pyTruthyS (some "") = true from by simp [pyTruthyS])]
      refine ⟨rfl, rfl, List.Perm.refl _, List.Perm.refl _, ?_⟩
      exact iff_of_true rfl (fun hc => hc.1 rfl)
    · rw [if_pos (show pyTruthyS (some s) = true from by simp [pyTruthyS, hs]),
          if_pos (show pyTruthyS (some s) = true from by simp [pyTruthyS, hs])]
      refine ⟨rfl, rfl, sortStringsAsc_perm _, sortStringsAsc_perm _, ?_⟩
      by_cases he : (crawl ((some s).getD "")).1 = []
      · by_cases hp : (crawl ((some s).getD "")).2 = []
        · refine iff_of_true ?_ ?_
          · have hse : sortStringsAsc (crawl ((some s).getD "")).1 = [] := by
              rw [he]; rfl
            have hsp : sortStringsAsc (crawl ((some s).getD "")).2 = [] := by
              rw [hp]; rfl
            have hl : (if sortStringsAsc (crawl ((some s).getD "")).1 ≠ [] ∨
                sortStringsAsc (crawl ((some s).getD "")).2 ≠ [] then
                  "found contacts" else "found website") = "found website" :=
              if_neg (by rw [hse, hsp]; simp)
            have hr : (if (crawl ((some s).getD "")).1 ≠ [] then
                "found contacts" else "found website") = "found website" :=
              if_neg (fun hc => hc he)
            exact hl.trans hr.symm
          · intro hc
            exact hc.2.2 hp
        · refine iff_of_false ?_ ?_
          · have hsp : sortStringsAsc (crawl ((some s).getD "")).2 ≠ [] := by
              intro hz
              exact hp ((sortStringsAsc_eq_nil_iff _).mp hz)
            have hl : (if sortStringsAsc (crawl ((some s).getD "")).1 ≠ [] ∨
                sortStringsAsc (crawl ((some s).getD "")).2 ≠ [] then
                  "found contacts" else "found website") = "found contacts" :=
              if_pos (Or.inr hsp)
            have hr : (if (crawl ((some s).getD "")).1 ≠ [] then
                "found contacts" else "found website") = "found website" :=
              if_neg (fun hc => hc he)
            intro hcontra
            have : ("found contacts" : String) = "found website" :=
              hl.symm.trans (hcontra.trans hr)
            exact absurd this (by decide)
          · intro hc
            exact hc ⟨fun hw => hs hw, he, hp⟩
      · refine iff_of_true ?_ ?_
        · have hse : sortStringsAsc (crawl ((some s).getD "")).1 ≠ [] := by
            intro hz
            exact he ((sortStringsAsc_eq_nil_iff _).mp hz)
          have hl : (if sortStringsAsc (crawl ((some s).getD "")).1 ≠ [] ∨
              sortStringsAsc (crawl ((some s).getD "")).2 ≠ [] then
                "found contacts" else "found website") = "found contacts" :=
            if_pos (Or.inl hse)
          have hr : (if (crawl ((some s).getD "")).1 ≠ [] then
              "found contacts" else "found website") = "found contacts" :=
            if_pos he
          exact hl.trans hr.symm
        · intro hc
          exact he hc.2.1

/-- Witness for C2 at a concrete company, transport and crawl. -/
theorem c2_equiv_amended_witness :
    lookupHint WEBSITE_HINTS_contacts5 (pyStrip "Testco") = none
    ∧ ((processCompanyScraper (fun _ => none) (fun _ => ([], [])) "Testco").company
          = (processCompanyContacts5 (fun _ => none) (fun _ => ([], [])) "Testco").company
      ∧ (processCompanyScraper (fun _ => none) (fun _ => ([], [])) "Testco").website
          = (processCompanyContacts5 (fun _ => none) (fun _ => ([], [])) "Testco").website
      ∧ (processCompanyScraper (fun _ => none) (fun _ => ([], [])) "Testco").emails.Perm
          (processCompanyContacts5 (fun _ => none) (fun _ => ([], [])) "Testco").emails
      ∧ (processCompanyScraper (fun _ => none) (fun _ => ([], [])) "Testco").phones.Perm
          (processCompanyContacts5 (fun _ => none) (fun _ => ([], [])) "Testco").phones
      ∧ ((processCompanyScraper (fun _ => none) (fun _ => ([], [])) "Testco").status
            = (processCompanyContacts5 (fun _ => none) (fun _ => ([], [])) "Testco").status ↔
          ¬((processCompanyContacts5 (fun _ => none) (fun _ => ([], [])) "Testco").website ≠ ""
            ∧ (processCompanyContacts5 (fun _ => none) (fun _ => ([], [])) "Testco").emails = []
            ∧ (processCompanyContacts5 (fun _ => none) (fun _ => ([], [])) "Testco").phones ≠ []))) :=
  ⟨by decide,
   c2_equiv_amended (fun _ => none) (fun _ => ([], [])) "Testco" (by decide)⟩

set_option maxRecDepth 20000 in
/-- C2 counterexample: same company, same transport, same crawl result
(one phone, no emails) — both implementations find the same website, but
`app/scraper.py` reports "found contacts" while `contacts5.py` reports
"found website". -/
theorem c2_counterexample :
    (processCompanyScraper (fun u => some u) (fun _ => ([], ["(555) 000-1111"]))
        "Testco").website = "https://www.testco.com"
    ∧ (processCompanyContacts5 (fun u => some u) (fun _ => ([], ["(555) 000-1111"]))
        "Testco").website = "https://www.testco.com"
    ∧ (processCompanyScraper (fun u => some u) (fun _ => ([], ["(555) 000-1111"]))
        "Testco").status = "found contacts"
    ∧ (processCompanyContacts5 (fun u => some u) (fun _ => ([], ["(555) 000-1111"]))
        "Testco").status = "found website" := by
  refine ⟨?_, ?_, ?_, ?_⟩ <;> decide


/-! ## Lemmas on tokens, stems and the acronym guard (claim C4) -/

theorem tokenizeGo_spec :
    ∀ (s cur : Str), (∀ c ∈ cur, isSepCh c = false) →
      ∀ t ∈ tokenizeGo cur s, t ≠ [] ∧ ∀ c ∈ t, isSepCh c = false := by
  intro s
  induction s with
  | nil =>
    intro cur hcur t ht
    rw [tokenizeGo] at ht
    by_cases hc : cur.isEmpty
    · rw [if_pos hc] at ht
      simp at ht
    · rw [if_neg hc] at ht
      rcases List.mem_singleton.mp ht with rfl
      refine ⟨?_, ?_⟩
      · intro hz
        rw [List.isEmpty_iff] at hc
        exact hc (by simpa using congrArg List.reverse hz)
      · intro c hcmem
        exact hcur c (List.mem_reverse.mp hcmem)
  | cons c rest ih =>
    intro cur hcur t ht
    rw [tokenizeGo] at ht
    by_cases hsep : isSepCh c = true
    · rw [if_pos hsep] at ht
      by_cases hc : cur.isEmpty
      · rw [if_pos hc] at ht
        exact ih [] (by simp) t ht
      · rw [if_neg hc] at ht
        rcases List.mem_cons.mp ht with rfl | hmem
        · refine ⟨?_, ?_⟩
          · intro hz
            rw [List.isEmpty_iff] at hc
            exact hc (by simpa using congrArg List.reverse hz)
          · intro d hd
            exact hcur d (List.mem_reverse.mp hd)
        · exact ih [] (by simp) t hmem
    · rw [if_neg hsep] at ht
      refine ih (c :: cur) ?_ t ht
      intro d hd
      rcases List.mem_cons.mp hd with rfl | hd'
      · exact Bool.eq_false_iff.mpr hsep
      · exact hcur d hd'

theorem tokensOfName_spec (company : String) :
    ∀ t ∈ tokensOfName company, t.data ≠ [] ∧ ∀ c ∈ t.data, isSepCh c = false := by
  intro t ht
  rw [tokensOfName, List.mem_map] at ht
  obtain ⟨l, hl, rfl⟩ := ht
  exact tokenizeGo_spec _ [] (by simp) l hl

theorem tokensOfName_no_hyphen (company : String) :
    ∀ t ∈ tokensOfName company, t ≠ "" ∧ '-' ∉ t.data := by
  intro t ht
  obtain ⟨hne, hall⟩ := tokensOfName_spec company t ht
  refine ⟨?_, ?_⟩
  · intro hz
    exact hne (by rw [hz])
  · intro hmem
    have := hall '-' hmem
    simp [isSepCh] at this

theorem joinAll_data (l : List String) :
    (joinAll l).data = (l.map String.data).flatten := by
  induction l with
  | nil => rfl
  | cons x rest ih =>
    rw [joinAll, String.data_append, ih]
    simp

theorem joinAll_no_hyphen {l : List String} (h : ∀ x ∈ l, '-' ∉ x.data) :
    '-' ∉ (joinAll l).data := by
  rw [joinAll_data]
  intro hmem
  rw [List.mem_flatten] at hmem
  obtain ⟨d, hd, hcd⟩ := hmem
  rw [List.mem_map] at hd
  obtain ⟨x, hx, rfl⟩ := hd
  exact h x hx hcd

theorem dashJoin_cons2_data (x y : String) (rest : List String) :
    (dashJoin (x :: y :: rest)).data = x.data ++ '-' :: (dashJoin (y :: rest)).data := by
  show (x ++ "-" ++ dashJoin (y :: rest)).data = _
  simp [String.data_append]

theorem mem_stripGenericTail {ts : List String} {x : String}
    (h : x ∈ stripGenericTail ts) : x ∈ ts := by
  rw [stripGenericTail, List.mem_reverse] at h
  exact List.mem_reverse.mp (List.dropWhile_subset _ h)

theorem mem_tokenListsOf {ts : List String} {tl0 : List String} {x : String}
    (htl : tl0 ∈ tokenListsOf ts) (hx : x ∈ tl0) :
    x ∈ ts ∨ acronymOf ts = some x := by
  rw [tokenListsOf] at htl
  rw [List.mem_append] at htl
  rcases htl with htl | hacr
  · rw [List.mem_append] at htl
    rcases htl with hbase | hcut
    · rw [List.mem_append] at hbase
      rcases hbase with hfull | hstr
      · rcases List.mem_singleton.mp hfull with rfl
        exact Or.inl hx
      · split at hstr
        · rcases List.mem_singleton.mp hstr with rfl
          exact Or.inl (mem_stripGenericTail hx)
        · simp at hstr
    · rw [List.mem_filterMap] at hcut
      obtain ⟨cut, -, hopt⟩ := hcut
      split at hopt
      · dsimp only at hopt
        split at hopt
        · exact Option.noConfusion hopt
        · injection hopt with htl0
          subst htl0
          exact Or.inl (List.take_subset _ _ hx)
      · exact Option.noConfusion hopt
  · revert hacr
    split
    next a hsome =>
      intro hacr
      rw [List.mem_append] at hacr
      rcases hacr with hrest | halone
      · split at hrest
        · rcases List.mem_cons.mp hrest with rfl | hrest2
          · rcases List.mem_cons.mp hx with rfl | hx2
            · exact Or.inr hsome
            · exact Or.inl (List.drop_subset _ _
                (mem_stripGenericTail (by
                  rw [restOf, if_pos (by rw [hsome]; rfl)] at hx2
                  exact List.take_subset _ _ hx2)))
          · rcases List.mem_singleton.mp hrest2 with rfl
            rcases List.mem_cons.mp hx with rfl | hx2
            · exact Or.inr hsome
            · exact Or.inl (List.drop_subset _ _
                (mem_stripGenericTail (by
                  rw [restOf, if_pos (by rw [hsome]; rfl)] at hx2
                  exact List.take_subset _ _ hx2)))
        · simp at hrest
      · split at halone
        · rcases List.mem_singleton.mp halone with rfl
          rcases List.mem_singleton.mp hx with rfl
          exact Or.inr hsome
        · simp at halone
    next hnone =>
      intro hacr
      simp at hacr


theorem string_eq_empty_iff_data (s : String) : s = "" ↔ s.data = [] := by
  constructor
  · intro h
    rw [h]
  · intro h
    show s = ""
    calc s = (⟨s.data⟩ : String) := rfl
    _ = "" := by rw [h]

theorem acronymOf_no_hyphen {company a : String}
    (h : acronymOf (tokensOfName company) = some a) : '-' ∉ a.data := by
  rw [acronymOf] at h
  split at h
  · injection h with ha
    subst ha
    apply joinAll_no_hyphen
    intro x hx
    exact (tokensOfName_no_hyphen company x (List.take_subset _ _ hx)).2
  · exact Option.noConfusion h

theorem stripBothHyphens_eq_self {s : String}
    (hhead : ∀ c, s.data.head? = some c → c ≠ '-')
    (hlast : ∀ c, s.data.getLast? = some c → c ≠ '-') :
    stripBothHyphens s = s := by
  have h1 : s.data.dropWhile (fun c => c = '-') = s.data := by
    cases hd : s.data with
    | nil => rfl
    | cons c rest =>
      rw [List.dropWhile_cons, if_neg (by simpa using hhead c (by rw [hd]; rfl))]
  have h2 : s.data.reverse.dropWhile (fun c => c = '-') = s.data.reverse := by
    cases hr : s.data.reverse with
    | nil => rfl
    | cons c rest =>
      have hc : s.data.getLast? = some c := by
        rw [← List.head?_reverse, hr]
        rfl
      rw [List.dropWhile_cons, if_neg (by simpa using hlast c hc)]
  show (⟨((s.data.dropWhile (fun c => c = '-')).reverse.dropWhile
      (fun c => c = '-')).reverse⟩ : String) = s
  rw [h1, h2, List.reverse_reverse]

theorem stripBothHyphens_of_no_hyphen {s : String} (h : '-' ∉ s.data) :
    stripBothHyphens s = s := by
  apply stripBothHyphens_eq_self
  · intro c hc hcd
    subst hcd
    cases hd : s.data with
    | nil => rw [hd] at hc; exact Option.noConfusion hc
    | cons d rest =>
      rw [hd] at hc
      injection hc with hdc
      exact h (by rw [hd, hdc]; exact List.mem_cons_self _ _)
  · intro c hc hcd
    subst hcd
    exact h (List.mem_of_getLast?_eq_some hc)

theorem dashJoin_getLast (tl : List String) (hne : tl ≠ [])
    (hall : ∀ z ∈ tl, z ≠ "" ∧ '-' ∉ z.data) :
    ∃ c, (dashJoin tl).data.getLast? = some c ∧ c ≠ '-' := by
  induction tl with
  | nil => exact absurd rfl hne
  | cons x rest ih =>
    cases rest with
    | nil =>
      obtain ⟨hx, hxh⟩ := hall x (List.mem_cons_self _ _)
      cases hgl : (dashJoin [x]).data.getLast? with
      | none =>
        rw [show dashJoin [x] = x from rfl] at hgl
        rw [List.getLast?_eq_none_iff] at hgl
        exact absurd ((string_eq_empty_iff_data x).mpr hgl) hx
      | some c =>
        refine ⟨c, rfl, ?_⟩
        rw [show dashJoin [x] = x from rfl] at hgl
        intro hcd
        subst hcd
        exact hxh (List.mem_of_getLast?_eq_some hgl)
    | cons y rest2 =>
      obtain ⟨c, hc, hcne⟩ := ih (by simp)
        (fun z hz => hall z (List.mem_cons_of_mem _ hz))
      refine ⟨c, ?_, hcne⟩
      rw [dashJoin_cons2_data,
        show ('-' :: (dashJoin (y :: rest2)).data)
          = ['-'] ++ (dashJoin (y :: rest2)).data from rfl,
        List.getLast?_append, List.getLast?_append, hc]
      rfl

theorem dashJoin_strip_two (x y : String) (rest : List String)
    (hall : ∀ z ∈ x :: y :: rest, z ≠ "" ∧ '-' ∉ z.data) :
    stripBothHyphens (dashJoin (x :: y :: rest)) = dashJoin (x :: y :: rest)
    ∧ '-' ∈ (dashJoin (x :: y :: rest)).data := by
  obtain ⟨hx, hxh⟩ := hall x (List.mem_cons_self _ _)
  constructor
  · apply stripBothHyphens_eq_self
    · intro c hc hcd
      subst hcd
      rw [dashJoin_cons2_data, List.head?_append] at hc
      cases hd : x.data with
      | nil => exact hx ((string_eq_empty_iff_data x).mpr hd)
      | cons d r =>
        rw [hd] at hc
        simp only [List.head?_cons, Option.or_some] at hc
        injection hc with hdc
        exact hxh (by rw [hd, hdc]; exact List.mem_cons_self _ _)
    · intro c hc hcd
      subst hcd
      obtain ⟨c', hc', hcne'⟩ := dashJoin_getLast (x :: y :: rest) (by simp) hall
      rw [hc] at hc'
      injection hc' with he
      exact hcne' he.symm
  · rw [dashJoin_cons2_data]
    exact List.mem_append_right _ (List.mem_cons_self _ _)


theorem string_append_empty (s : String) : s ++ "" = s := by
  show (⟨s.data ++ []⟩ : String) = s
  rw [List.append_nil]

theorem mem_candidatesOf {ts : List String} {c : String}
    (h : c ∈ candidatesOf ts) :
    ∃ tl0, tl0 ∈ tokenListsOf ts ∧
      (tl0.filter (fun x => x ≠ "" && !genericTail.contains x) ≠ []) ∧
      ¬(meaningfulOfTokens ts ≠ [] ∧
        ((match acronymOf ts with
          | some a => a ≠ "" &&
              joinAll (tl0.filter (fun x => x ≠ "" && !genericTail.contains x)) = a
          | none => false)
         || (tl0.filter (fun x => x ≠ "" && !genericTail.contains x)).all
              (fun x => x.length = 1)) = true) ∧
      (c = joinAll (tl0.filter (fun x => x ≠ "" && !genericTail.contains x))
       ∨ c = dashJoin (tl0.filter (fun x => x ≠ "" && !genericTail.contains x))) := by
  rw [candidatesOf, List.mem_flatMap] at h
  obtain ⟨tl0, htl0, hc⟩ := h
  dsimp only at hc
  refine ⟨tl0, htl0, ?_⟩
  split at hc
  next hemp => simp at hc
  next hne =>
    split at hc
    next hg => simp at hc
    next hng =>
      refine ⟨hne, hng, ?_⟩
      rcases List.mem_cons.mp hc with rfl | hc2
      · exact Or.inl rfl
      · rcases List.mem_singleton.mp hc2 with rfl
        exact Or.inr rfl

/-- C4: for a company whose normalization detects an acronym and keeps at
least one meaningful token, none of the domain stems `try_common_urls`
builds its candidate URLs from equals the acronym. -/
theorem c4_no_stem_equals_acronym (company a : String)
    (hacr : acronymOf (tokensOfName company) = some a)
    (hmean : meaningfulOfTokens (tokensOfName company) ≠ []) :
    ∀ d ∈ candOutOf (tokensOfName company), d ≠ a := by
  intro d hd
  have hd' := mem_dedupPO_mem hd
  rw [List.mem_filter] at hd'
  obtain ⟨hdm, hdne0⟩ := hd'
  have hdne : d ≠ "" := by simpa using hdne0
  rw [List.mem_map] at hdm
  obtain ⟨c, hc, hdc⟩ := hdm
  obtain ⟨tl0, htl0, hfne, hguard, hcj⟩ := mem_candidatesOf hc
  by_cases ha0 : a = ""
  · rw [ha0]
    exact hdne
  have hja : joinAll (tl0.filter (fun x => x ≠ "" && !genericTail.contains x))
      ≠ a := by
    intro hja
    apply hguard
    refine ⟨hmean, ?_⟩
    rw [hacr]
    rw [Bool.or_eq_true]
    left
    rw [Bool.and_eq_true]
    exact ⟨decide_eq_true ha0, decide_eq_true hja⟩
  have hall : ∀ z ∈ tl0.filter (fun x => x ≠ "" && !genericTail.contains x),
      z ≠ "" ∧ '-' ∉ z.data := by
    intro z hz
    rw [List.mem_filter] at hz
    obtain ⟨hz0, -⟩ := hz
    rcases mem_tokenListsOf htl0 hz0 with hzt | hza
    · exact tokensOfName_no_hyphen company z hzt
    · rw [hacr] at hza
      injection hza with he
      subst he
      exact ⟨ha0, acronymOf_no_hyphen hacr⟩
  rcases hcj with rfl | rfl
  · have hnh : '-' ∉ (joinAll (tl0.filter
        (fun x => x ≠ "" && !genericTail.contains x))).data :=
      joinAll_no_hyphen (fun x hx => (hall x hx).2)
    rw [stripBothHyphens_of_no_hyphen hnh] at hdc
    rw [← hdc]
    exact hja
  · generalize hg : tl0.filter (fun x => x ≠ "" && !genericTail.contains x)
      = tl at hfne hja hall hdc
    cases tl with
    | nil => exact absurd rfl hfne
    | cons x rest =>
      cases rest with
      | nil =>
        obtain ⟨hx, hxh⟩ := hall x (List.mem_cons_self _ _)
        rw [show dashJoin [x] = x from rfl] at hdc
        rw [stripBothHyphens_of_no_hyphen hxh] at hdc
        rw [← hdc]
        intro hxa
        apply hja
        rw [show joinAll [x] = x ++ "" from rfl, string_append_empty]
        exact hxa
      | cons y rest2 =>
        obtain ⟨hst, hmem⟩ := dashJoin_strip_two x y rest2 hall
        rw [hst] at hdc
        intro hda
        apply acronymOf_no_hyphen hacr
        rw [← hda, ← hdc]
        exact hmem

/-- Witness for C4 at the repository's flagship example. -/
theorem c4_no_stem_equals_acronym_witness :
    (acronymOf (tokensOfName "A-B-C Packaging") = some "abc"
      ∧ meaningfulOfTokens (tokensOfName "A-B-C Packaging") ≠ [])
    ∧ ∀ d ∈ candOutOf (tokensOfName "A-B-C Packaging"), d ≠ "abc" :=
  ⟨⟨by decide, by decide⟩,
   c4_no_stem_equals_acronym "A-B-C Packaging" "abc" (by decide) (by decide)⟩


/-! ## Lemmas on the candidate scorer (claim C6) -/

def okCh (c : Char) : Bool := isAsciiAlnum c || c = ' ' || c = '-'

def AllOk (l : Str) : Prop := ∀ c ∈ l, okCh c = true

def SpPlain (l : Str) : Prop := ∀ c ∈ l, isSpc c = true → c = ' '

def NoDbl (l : Str) : Prop :=
  List.Chain' (fun a b => ¬(isSpc a = true ∧ isSpc b = true)) l

def NoSpHy (l : Str) : Prop :=
  List.Chain' (fun a b => ¬(isSpc a = true ∧ b = '-') ∧ ¬(a = '-' ∧ isSpc b = true)) l

def NoLead (l : Str) : Prop := ∀ c, l.head? = some c → isSpc c = false

def NoTrail (l : Str) : Prop := ∀ c, l.getLast? = some c → isSpc c = false

theorem chain'_dropWhile {R : Char → Char → Prop} {p : Char → Bool} :
    ∀ {l : Str}, List.Chain' R l → List.Chain' R (l.dropWhile p) := by
  intro l
  induction l with
  | nil => intro h; simp
  | cons c rest ih =>
    intro h
    rw [List.dropWhile_cons]
    split
    · exact ih h.tail
    · exact h

theorem prefix_head? {l₁ l₂ : Str} (h : l₁ <+: l₂) {c : Char}
    (hc : l₁.head? = some c) : l₂.head? = some c := by
  obtain ⟨tail, rfl⟩ := h
  cases l₁ with
  | nil => exact Option.noConfusion hc
  | cons a r => simpa using hc

theorem rstripSp_prefix_self (l : Str) : rstripSp l <+: l := by
  rw [rstripSp]
  obtain ⟨pre, hpre⟩ := List.dropWhile_suffix (l := l.reverse) (p := isSpc)
  refine ⟨pre.reverse, ?_⟩
  calc (l.reverse.dropWhile isSpc).reverse ++ pre.reverse
      = (pre ++ l.reverse.dropWhile isSpc).reverse := (List.reverse_append _ _).symm
    _ = l.reverse.reverse := by rw [hpre]
    _ = l := List.reverse_reverse l


theorem suffix_getLast? {l₁ l₂ : Str} (h : l₁ <:+ l₂) {c : Char}
    (hc : l₁.getLast? = some c) : l₂.getLast? = some c := by
  obtain ⟨pre, rfl⟩ := h
  rw [List.getLast?_append, hc]
  rfl

theorem stripSp_noLead (l : Str) : NoLead (stripSp l) := by
  intro c hc
  rw [stripSp] at hc
  have hc2 : (lstripSp l).head? = some c :=
    prefix_head? (rstripSp_prefix_self (lstripSp l)) hc
  rw [lstripSp] at hc2
  cases hd : l.dropWhile isSpc with
  | nil => rw [hd] at hc2; exact Option.noConfusion hc2
  | cons d rest =>
    rw [hd] at hc2
    injection hc2 with hdc
    subst hdc
    have := List.head?_dropWhile_not isSpc l
    rw [hd] at this
    simpa using this

theorem stripSp_noTrail (l : Str) : NoTrail (stripSp l) := by
  intro c hc
  rw [stripSp, rstripSp, ← List.head?_reverse, List.reverse_reverse] at hc
  cases hd : (lstripSp l).reverse.dropWhile isSpc with
  | nil => rw [hd] at hc; exact Option.noConfusion hc
  | cons d rest =>
    rw [hd] at hc
    injection hc with hdc
    subst hdc
    have := List.head?_dropWhile_not isSpc (lstripSp l).reverse
    rw [hd] at this
    simpa using this

theorem stripSp_eq_self {l : Str} (h1 : NoLead l) (h2 : NoTrail l) :
    stripSp l = l := by
  have hl : lstripSp l = l := by
    rw [lstripSp]
    cases hd : l with
    | nil => rfl
    | cons c rest =>
      rw [List.dropWhile_cons, if_neg]
      rw [h1 c (by rw [hd]; rfl)]
      exact Bool.noConfusion
  rw [stripSp, hl, rstripSp]
  cases hr : l.reverse with
  | nil => simpa using congrArg List.reverse hr
  | cons c rest =>
    rw [List.dropWhile_cons, if_neg]
    · rw [← hr, List.reverse_reverse]
    · rw [h2 c (by rw [← List.head?_reverse, hr]; rfl)]
      exact Bool.noConfusion

theorem stripSp_subset (l : Str) : stripSp l ⊆ l := by
  intro c hc
  rw [stripSp, rstripSp] at hc
  have h1 : c ∈ lstripSp l := by
    have := List.dropWhile_subset (l := (lstripSp l).reverse) isSpc
    rw [List.mem_reverse] at hc
    have h2 := this hc
    rw [List.mem_reverse] at h2
    exact h2
  exact List.dropWhile_subset isSpc h1

theorem stripSp_chain' {R : Char → Char → Prop} {l : Str}
    (h : List.Chain' R l) : List.Chain' R (stripSp l) := by
  have h1 : List.Chain' R (lstripSp l) := chain'_dropWhile h
  rw [stripSp, rstripSp, List.chain'_reverse]
  apply chain'_dropWhile
  rw [List.chain'_reverse]
  exact h1


theorem isSpc_elim {c : Char} (h : isSpc c = true) :
    c = ' ' ∨ c = '\t' ∨ c = '\n' ∨ c = '\r' ∨ c = '\x0b' ∨ c = '\x0c' := by
  rw [isSpc] at h
  simp only [Bool.or_eq_true, decide_eq_true_eq] at h
  tauto

theorem isSpc_ne_hyphen {c : Char} (h : isSpc c = true) : c ≠ '-' := by
  rcases isSpc_elim h with h|h|h|h|h|h <;> (subst h; decide)

theorem okCh_spc {c : Char} (h0 : okCh c = true) (h1 : isSpc c = true) :
    c = ' ' := by
  rcases isSpc_elim h1 with h|h|h|h|h|h <;> subst h
  · rfl
  all_goals exact absurd h0 (by decide)

theorem allOk_spPlain {l : Str} (h : AllOk l) : SpPlain l :=
  fun c hc hs => okCh_spc (h c hc) hs

def jOk (c : Char) : Bool := isAsciiAlnum c || isSpc c || c = '-'

theorem okCh_of_jOk {c : Char} (h : jOk c = true) (hs : isSpc c = false) :
    okCh c = true := by
  rw [jOk] at h
  simp only [Bool.or_eq_true, decide_eq_true_eq] at h
  rcases h with (h | h) | h
  · rw [okCh]; simp [h]
  · rw [h] at hs; exact Bool.noConfusion hs
  · subst h; decide

theorem jOk_of_okCh {c : Char} (h : okCh c = true) : jOk c = true := by
  rw [okCh] at h
  rw [jOk]
  simp only [Bool.or_eq_true, decide_eq_true_eq] at h ⊢
  rcases h with (h | h) | h
  · exact Or.inl (Or.inl h)
  · subst h; exact Or.inl (Or.inr (by decide))
  · exact Or.inr h

theorem junkL_chars (l : Str) : ∀ c ∈ junkL l, jOk c = true := by
  intro c hc
  simp only [junkL, List.mem_map] at hc
  obtain ⟨d, _, hdc⟩ := hc
  split at hdc
  · subst hdc
    rw [jOk]
    assumption
  · subst hdc; decide

theorem junkL_eq_self {l : Str} (h : AllOk l) : junkL l = l := by
  induction l with
  | nil => rfl
  | cons c rest ih =>
    have hc := jOk_of_okCh (h c (List.mem_cons_self c rest))
    rw [jOk] at hc
    have hrest := ih (fun d hd => h d (List.mem_cons_of_mem c hd))
    simp only [junkL, List.map_cons]
    rw [if_pos hc]
    simp only [junkL] at hrest
    rw [hrest]

theorem chain'_of_len_le_one {R : Char → Char → Prop} {l : Str}
    (h : l.length ≤ 1) : List.Chain' R l := by
  match l, h with
  | [], _ => exact List.chain'_nil
  | [c], _ => exact List.chain'_singleton c

theorem collapseSpacesGo_head_true (l : Str) :
    ∀ c, (collapseSpacesGo true l).head? = some c → isSpc c = false := by
  induction l with
  | nil => intro c hc; exact Option.noConfusion hc
  | cons d rest ih =>
    intro c hc
    rw [collapseSpacesGo] at hc
    by_cases hd : isSpc d = true
    · rw [if_pos hd, if_pos rfl] at hc
      exact ih c hc
    · rw [if_neg hd] at hc
      injection hc with h
      subst h
      simpa using hd

theorem collapseSpacesGo_mem (b : Bool) (l : Str) :
    ∀ c ∈ collapseSpacesGo b l, c = ' ' ∨ (c ∈ l ∧ isSpc c = false) := by
  induction l generalizing b with
  | nil =>
    intro c hc
    rw [collapseSpacesGo] at hc
    exact absurd hc (List.not_mem_nil c)
  | cons d rest ih =>
    intro c hc
    rw [collapseSpacesGo] at hc
    by_cases hd : isSpc d = true
    · rw [if_pos hd] at hc
      cases b with
      | true =>
        rw [if_pos rfl] at hc
        rcases ih true c hc with h | ⟨h1, h2⟩
        · exact Or.inl h
        · exact Or.inr ⟨List.mem_cons_of_mem d h1, h2⟩
      | false =>
        rw [if_neg Bool.false_ne_true] at hc
        rcases List.mem_cons.mp hc with h | h
        · exact Or.inl h
        · rcases ih true c h with h' | ⟨h1, h2⟩
          · exact Or.inl h'
          · exact Or.inr ⟨List.mem_cons_of_mem d h1, h2⟩
    · rw [if_neg hd] at hc
      rcases List.mem_cons.mp hc with h | h
      · subst h
        exact Or.inr ⟨List.mem_cons_self c rest, by simpa using hd⟩
      · rcases ih false c h with h' | ⟨h1, h2⟩
        · exact Or.inl h'
        · exact Or.inr ⟨List.mem_cons_of_mem d h1, h2⟩

theorem collapseSpacesGo_nodbl (b : Bool) (l : Str) :
    NoDbl (collapseSpacesGo b l) := by
  induction l generalizing b with
  | nil => rw [collapseSpacesGo]; exact List.chain'_nil
  | cons d rest ih =>
    rw [collapseSpacesGo]
    by_cases hd : isSpc d = true
    · rw [if_pos hd]
      cases b with
      | true => rw [if_pos rfl]; exact ih true
      | false =>
        rw [if_neg Bool.false_ne_true]
        rw [NoDbl, List.chain'_cons']
        refine ⟨?_, ih true⟩
        intro c hc hcon
        rw [collapseSpacesGo_head_true rest c hc] at hcon
        exact Bool.noConfusion hcon.2
    · rw [if_neg hd]
      rw [NoDbl, List.chain'_cons']
      refine ⟨?_, ih false⟩
      intro c _ hcon
      exact hd hcon.1

theorem collapseSpacesGo_spPlain (b : Bool) (l : Str) :
    SpPlain (collapseSpacesGo b l) := by
  intro c hc hs
  rcases collapseSpacesGo_mem b l c hc with h | ⟨_, h2⟩
  · exact h
  · rw [hs] at h2; exact Bool.noConfusion h2

theorem collapseSpacesGo_true_eq_false {l : Str}
    (h : ∀ c, l.head? = some c → isSpc c = false) :
    collapseSpacesGo true l = collapseSpacesGo false l := by
  cases l with
  | nil => rfl
  | cons d rest =>
    have hd := h d rfl
    rw [collapseSpacesGo, collapseSpacesGo, if_neg, if_neg]
    · rw [hd]; exact Bool.noConfusion
    · rw [hd]; exact Bool.noConfusion

theorem collapseSpacesGo_eq_self {l : Str} (h1 : SpPlain l) (h2 : NoDbl l) :
    collapseSpacesGo false l = l := by
  induction l with
  | nil => rfl
  | cons d rest ih =>
    rw [collapseSpacesGo]
    by_cases hd : isSpc d = true
    · rw [if_pos hd, if_neg Bool.false_ne_true]
      have hdsp : d = ' ' := h1 d (List.mem_cons_self d rest) hd
      have hhead : ∀ c, rest.head? = some c → isSpc c = false := by
        intro c hc
        rw [NoDbl] at h2
        cases rest with
        | nil => exact Option.noConfusion hc
        | cons e r2 =>
          injection hc with he
          have h3 := (List.chain'_cons'.mp h2).1 e rfl
          rw [← he]
          by_contra hce
          exact h3 ⟨hd, by simpa using hce⟩
      rw [collapseSpacesGo_true_eq_false hhead]
      rw [ih (fun c hc hs => h1 c (List.mem_cons_of_mem d hc) hs)
        (List.Chain'.tail h2)]
      rw [hdsp]
    · rw [if_neg hd]
      rw [ih (fun c hc hs => h1 c (List.mem_cons_of_mem d hc) hs)
        (List.Chain'.tail h2)]


theorem collapseHyphensGo_head_false (l : Str) :
    (collapseHyphensGo false l).head? = l.head? := by
  cases l with
  | nil => rfl
  | cons c rest =>
    rw [collapseHyphensGo]
    by_cases hc : c = '-'
    · rw [if_pos hc, if_neg Bool.false_ne_true, hc]
      rfl
    · rw [if_neg hc]
      rfl

theorem collapseHyphensGo_false_eq_nil {l : Str}
    (h : collapseHyphensGo false l = []) : l = [] := by
  cases l with
  | nil => rfl
  | cons c rest =>
    rw [collapseHyphensGo] at h
    by_cases hc : c = '-'
    · rw [if_pos hc, if_neg Bool.false_ne_true] at h
      exact List.noConfusion h
    · rw [if_neg hc] at h
      exact List.noConfusion h

theorem collapseHyphensGo_mem (b : Bool) (l : Str) :
    ∀ c ∈ collapseHyphensGo b l, c ∈ l := by
  induction l generalizing b with
  | nil =>
    intro c hc
    rw [collapseHyphensGo] at hc
    exact absurd hc (List.not_mem_nil c)
  | cons d rest ih =>
    intro c hc
    rw [collapseHyphensGo] at hc
    by_cases hd : d = '-'
    · rw [if_pos hd] at hc
      cases b with
      | true =>
        rw [if_pos rfl] at hc
        exact List.mem_cons_of_mem d (ih true c hc)
      | false =>
        rw [if_neg Bool.false_ne_true] at hc
        rcases List.mem_cons.mp hc with h | h
        · rw [h, hd]; exact List.mem_cons_self '-' rest
        · exact List.mem_cons_of_mem d (ih true c h)
    · rw [if_neg hd] at hc
      rcases List.mem_cons.mp hc with h | h
      · rw [h]; exact List.mem_cons_self d rest
      · exact List.mem_cons_of_mem d (ih false c h)

theorem collapseHyphensGo_nodbl {l : Str} (h : NoDbl l) :
    ∀ b, NoDbl (collapseHyphensGo b l) := by
  induction l with
  | nil => intro b; rw [collapseHyphensGo]; exact List.chain'_nil
  | cons d rest ih =>
    intro b
    rw [collapseHyphensGo]
    by_cases hd : d = '-'
    · rw [if_pos hd]
      cases b with
      | true => rw [if_pos rfl]; exact ih (List.Chain'.tail h) true
      | false =>
        rw [if_neg Bool.false_ne_true]
        rw [NoDbl, List.chain'_cons']
        refine ⟨?_, ih (List.Chain'.tail h) true⟩
        intro c _ hcon
        exact absurd hcon.1 (by decide)
    · rw [if_neg hd]
      rw [NoDbl, List.chain'_cons']
      refine ⟨?_, ih (List.Chain'.tail h) false⟩
      intro c hc
      rw [collapseHyphensGo_head_false rest] at hc
      exact (List.chain'_cons'.mp h).1 c hc

theorem collapseHyphensGo_last (b : Bool) (l : Str) :
    ∀ c, (collapseHyphensGo b l).getLast? = some c → isSpc c = true →
      l.getLast? = some c := by
  induction l generalizing b with
  | nil =>
    intro c hc _
    rw [collapseHyphensGo] at hc
    exact Option.noConfusion hc
  | cons d rest ih =>
    intro c hc hs
    rw [collapseHyphensGo] at hc
    by_cases hd : d = '-'
    · rw [if_pos hd] at hc
      cases b with
      | true =>
        rw [if_pos rfl] at hc
        have h1 := ih true c hc hs
        cases rest with
        | nil => exact absurd h1 (by rw [List.getLast?]; exact Option.noConfusion)
        | cons e r2 => rw [List.getLast?_cons_cons]; exact h1
      | false =>
        rw [if_neg Bool.false_ne_true] at hc
        cases hg : collapseHyphensGo true rest with
        | nil =>
          rw [hg] at hc
          injection hc with h1
          rw [← h1] at hs
          exact absurd hs (by decide)
        | cons e t =>
          rw [hg, List.getLast?_cons_cons, ← hg] at hc
          have h1 := ih true c hc hs
          cases rest with
          | nil => exact absurd h1 (by rw [List.getLast?]; exact Option.noConfusion)
          | cons e2 r2 => rw [List.getLast?_cons_cons]; exact h1
    · rw [if_neg hd] at hc
      cases hg : collapseHyphensGo false rest with
      | nil =>
        have hrest := collapseHyphensGo_false_eq_nil hg
        subst hrest
        rw [hg] at hc
        exact hc
      | cons e t =>
        rw [hg, List.getLast?_cons_cons, ← hg] at hc
        have h1 := ih false c hc hs
        cases rest with
        | nil => exact absurd h1 (by rw [List.getLast?]; exact Option.noConfusion)
        | cons e2 r2 => rw [List.getLast?_cons_cons]; exact h1


theorem nosphy_of_all_spc {l : Str} (h : ∀ c ∈ l, isSpc c = true) :
    NoSpHy l := by
  induction l with
  | nil => exact List.chain'_nil
  | cons d rest ih =>
    rw [NoSpHy, List.chain'_cons']
    constructor
    · intro e he
      have hd := h d (List.mem_cons_self d rest)
      have hemem : e ∈ rest := by
        cases rest with
        | nil => exact Option.noConfusion he
        | cons f r2 =>
          injection he with hef
          rw [← hef]
          exact List.mem_cons_self f r2
      have he2 := h e (List.mem_cons_of_mem d hemem)
      exact ⟨fun hcon => isSpc_ne_hyphen he2 hcon.2,
             fun hcon => isSpc_ne_hyphen hd hcon.1⟩
    · exact ih (fun c hc => h c (List.mem_cons_of_mem d hc))

theorem getLast?_cons_lift {d c : Char} {rest : Str}
    (h : rest.getLast? = some c) : (d :: rest).getLast? = some c := by
  cases rest with
  | nil => exact Option.noConfusion h
  | cons e t => rw [List.getLast?_cons_cons]; exact h

theorem hyphenSpaceGo_mem (l : Str) :
    ∀ pending b c, c ∈ hyphenSpaceGo pending b l → c ∈ pending ∨ c ∈ l := by
  induction l with
  | nil =>
    intro pending b c hc
    rw [hyphenSpaceGo] at hc
    cases b with
    | true =>
      rw [if_pos rfl] at hc
      exact absurd hc (List.not_mem_nil c)
    | false =>
      rw [if_neg Bool.false_ne_true] at hc
      exact Or.inl (List.mem_reverse.mp hc)
  | cons d rest ih =>
    intro pending b c hc
    rw [hyphenSpaceGo] at hc
    cases b with
    | true =>
      rw [if_pos rfl] at hc
      by_cases hd : isSpc d = true
      · rw [if_pos hd] at hc
        rcases ih [] true c hc with h | h
        · exact absurd h (List.not_mem_nil c)
        · exact Or.inr (List.mem_cons_of_mem d h)
      · rw [if_neg hd] at hc
        by_cases hd2 : d = '-'
        · rw [if_pos hd2] at hc
          rcases List.mem_cons.mp hc with h | h
          · rw [h, hd2]; exact Or.inr (List.mem_cons_self '-' rest)
          · rcases ih [] true c h with h' | h'
            · exact absurd h' (List.not_mem_nil c)
            · exact Or.inr (List.mem_cons_of_mem d h')
        · rw [if_neg hd2] at hc
          rcases List.mem_cons.mp hc with h | h
          · rw [h]; exact Or.inr (List.mem_cons_self d rest)
          · rcases ih [] false c h with h' | h'
            · exact absurd h' (List.not_mem_nil c)
            · exact Or.inr (List.mem_cons_of_mem d h')
    | false =>
      rw [if_neg Bool.false_ne_true] at hc
      by_cases hd2 : d = '-'
      · rw [if_pos hd2] at hc
        rcases List.mem_cons.mp hc with h | h
        · rw [h, hd2]; exact Or.inr (List.mem_cons_self '-' rest)
        · rcases ih [] true c h with h' | h'
          · exact absurd h' (List.not_mem_nil c)
          · exact Or.inr (List.mem_cons_of_mem d h')
      · rw [if_neg hd2] at hc
        by_cases hd : isSpc d = true
        · rw [if_pos hd] at hc
          rcases ih (d :: pending) false c hc with h | h
          · rcases List.mem_cons.mp h with h' | h'
            · rw [h']; exact Or.inr (List.mem_cons_self d rest)
            · exact Or.inl h'
          · exact Or.inr (List.mem_cons_of_mem d h)
        · rw [if_neg hd] at hc
          rcases List.mem_append.mp hc with h | h
          · exact Or.inl (List.mem_reverse.mp h)
          · rcases List.mem_cons.mp h with h' | h'
            · rw [h']; exact Or.inr (List.mem_cons_self d rest)
            · rcases ih [] false c h' with h2 | h2
              · exact absurd h2 (List.not_mem_nil c)
              · exact Or.inr (List.mem_cons_of_mem d h2)

theorem hyphenSpaceGo_head_true (l : Str) :
    ∀ c, (hyphenSpaceGo [] true l).head? = some c → isSpc c = false := by
  induction l with
  | nil =>
    intro c hc
    rw [hyphenSpaceGo, if_pos rfl] at hc
    exact Option.noConfusion hc
  | cons d rest ih =>
    intro c hc
    rw [hyphenSpaceGo, if_pos rfl] at hc
    by_cases hd : isSpc d = true
    · rw [if_pos hd] at hc
      exact ih c hc
    · rw [if_neg hd] at hc
      by_cases hd2 : d = '-'
      · rw [if_pos hd2] at hc
        injection hc with h
        rw [← h]
        decide
      · rw [if_neg hd2] at hc
        injection hc with h
        rw [← h]
        simpa using hd

theorem hyphenSpaceGo_nosphy (l : Str) :
    ∀ pending b, (∀ c ∈ pending, isSpc c = true) →
      NoSpHy (hyphenSpaceGo pending b l) := by
  induction l with
  | nil =>
    intro pending b hp
    rw [hyphenSpaceGo]
    cases b with
    | true => rw [if_pos rfl]; exact List.chain'_nil
    | false =>
      rw [if_neg Bool.false_ne_true]
      exact nosphy_of_all_spc (fun c hc => hp c (List.mem_reverse.mp hc))
  | cons d rest ih =>
    intro pending b hp
    rw [hyphenSpaceGo]
    cases b with
    | true =>
      rw [if_pos rfl]
      by_cases hd : isSpc d = true
      · rw [if_pos hd]
        exact ih [] true (fun c hc => absurd hc (List.not_mem_nil c))
      · rw [if_neg hd]
        by_cases hd2 : d = '-'
        · rw [if_pos hd2]
          rw [NoSpHy, List.chain'_cons']
          refine ⟨?_, ih [] true (fun c hc => absurd hc (List.not_mem_nil c))⟩
          intro e he
          exact ⟨fun hcon => absurd hcon.1 (by decide),
                 fun hcon => by
                   rw [hyphenSpaceGo_head_true rest e he] at hcon
                   exact Bool.noConfusion hcon.2⟩
        · rw [if_neg hd2]
          rw [NoSpHy, List.chain'_cons']
          refine ⟨?_, ih [] false (fun c hc => absurd hc (List.not_mem_nil c))⟩
          intro e _
          exact ⟨fun hcon => hd hcon.1, fun hcon => hd2 hcon.1⟩
    | false =>
      rw [if_neg Bool.false_ne_true]
      by_cases hd2 : d = '-'
      · rw [if_pos hd2]
        rw [NoSpHy, List.chain'_cons']
        refine ⟨?_, ih [] true (fun c hc => absurd hc (List.not_mem_nil c))⟩
        intro e he
        exact ⟨fun hcon => absurd hcon.1 (by decide),
               fun hcon => by
                 rw [hyphenSpaceGo_head_true rest e he] at hcon
                 exact Bool.noConfusion hcon.2⟩
      · rw [if_neg hd2]
        by_cases hd : isSpc d = true
        · rw [if_pos hd]
          exact ih (d :: pending) false
            (fun c hc => by
              rcases List.mem_cons.mp hc with h | h
              · rw [h]; exact hd
              · exact hp c h)
        · rw [if_neg hd]
          rw [NoSpHy, List.chain'_append]
          refine ⟨nosphy_of_all_spc (fun c hc => hp c (List.mem_reverse.mp hc)),
                  ?_, ?_⟩
          · rw [List.chain'_cons']
            refine ⟨?_, ih [] false (fun c hc => absurd hc (List.not_mem_nil c))⟩
            intro e _
            exact ⟨fun hcon => hd hcon.1, fun hcon => hd2 hcon.1⟩
          · intro x hx y hy
            have hxs : isSpc x = true := by
              have hxm : x ∈ pending.reverse :=
                List.mem_of_getLast?_eq_some hx
              exact hp x (List.mem_reverse.mp hxm)
            have hyd : y = d := by
              rw [List.head?_cons] at hy
              injection hy with h
              exact h.symm
            rw [hyd]
            exact ⟨fun hcon => hd2 hcon.2, fun hcon => isSpc_ne_hyphen hxs hcon.1⟩


theorem hyphenSpaceGo_nodbl (l : Str) :
    ∀ pending b, NoDbl l → pending.length ≤ 1 →
      (pending = [] ∨ ∀ d, l.head? = some d → isSpc d = false) →
      NoDbl (hyphenSpaceGo pending b l) := by
  induction l with
  | nil =>
    intro pending b _ hlen _
    rw [hyphenSpaceGo]
    cases b with
    | true => rw [if_pos rfl]; exact List.chain'_nil
    | false =>
      rw [if_neg Bool.false_ne_true]
      exact chain'_of_len_le_one (by rw [List.length_reverse]; exact hlen)
  | cons d rest ih =>
    intro pending b hnd hlen hp
    rw [hyphenSpaceGo]
    have htail : NoDbl rest := List.Chain'.tail hnd
    cases b with
    | true =>
      rw [if_pos rfl]
      by_cases hd : isSpc d = true
      · rw [if_pos hd]
        exact ih [] true htail (by decide) (Or.inl rfl)
      · rw [if_neg hd]
        by_cases hd2 : d = '-'
        · rw [if_pos hd2]
          rw [NoDbl, List.chain'_cons']
          refine ⟨?_, ih [] true htail (by decide) (Or.inl rfl)⟩
          intro e _ hcon
          exact absurd hcon.1 (by decide)
        · rw [if_neg hd2]
          rw [NoDbl, List.chain'_cons']
          refine ⟨?_, ih [] false htail (by decide) (Or.inl rfl)⟩
          intro e _ hcon
          exact hd hcon.1
    | false =>
      rw [if_neg Bool.false_ne_true]
      by_cases hd2 : d = '-'
      · rw [if_pos hd2]
        rw [NoDbl, List.chain'_cons']
        refine ⟨?_, ih [] true htail (by decide) (Or.inl rfl)⟩
        intro e _ hcon
        exact absurd hcon.1 (by decide)
      · rw [if_neg hd2]
        by_cases hd : isSpc d = true
        · rw [if_pos hd]
          have hpnil : pending = [] := by
            rcases hp with h | h
            · exact h
            · rw [h d rfl] at hd
              exact Bool.noConfusion hd
          subst hpnil
          apply ih [d] false htail (by simp)
          right
          intro e he
          cases rest with
          | nil => exact Option.noConfusion he
          | cons f r2 =>
            injection he with hef
            have h3 := (List.chain'_cons'.mp hnd).1 f rfl
            rw [← hef]
            by_contra hce
            exact h3 ⟨hd, by simpa using hce⟩
        · rw [if_neg hd]
          rw [NoDbl, List.chain'_append]
          refine ⟨chain'_of_len_le_one (by rw [List.length_reverse]; exact hlen),
                  ?_, ?_⟩
          · rw [List.chain'_cons']
            refine ⟨?_, ih [] false htail (by decide) (Or.inl rfl)⟩
            intro e _ hcon
            exact hd hcon.1
          · intro x _ y hy
            have hyd : y = d := by
              rw [List.head?_cons] at hy
              injection hy with h
              exact h.symm
            rw [hyd]
            intro hcon
            exact hd hcon.2

theorem hyphenSpaceGo_last (l : Str) :
    ∀ pending b c, (hyphenSpaceGo pending b l).getLast? = some c →
      isSpc c = true →
      l.getLast? = some c ∨ (l = [] ∧ b = false ∧ pending.head? = some c) := by
  induction l with
  | nil =>
    intro pending b c hc hs
    rw [hyphenSpaceGo] at hc
    cases b with
    | true =>
      rw [if_pos rfl] at hc
      exact Option.noConfusion hc
    | false =>
      rw [if_neg Bool.false_ne_true] at hc
      right
      refine ⟨rfl, rfl, ?_⟩
      rw [← List.reverse_reverse pending, List.head?_reverse]
      exact hc
  | cons d rest ih =>
    intro pending b c hc hs
    rw [hyphenSpaceGo] at hc
    cases b with
    | true =>
      rw [if_pos rfl] at hc
      by_cases hd : isSpc d = true
      · rw [if_pos hd] at hc
        rcases ih [] true c hc hs with h | ⟨_, hcon, _⟩
        · exact Or.inl (getLast?_cons_lift h)
        · exact Bool.noConfusion hcon
      · rw [if_neg hd] at hc
        by_cases hd2 : d = '-'
        · rw [if_pos hd2] at hc
          cases hg : hyphenSpaceGo [] true rest with
          | nil =>
            rw [hg] at hc
            injection hc with h1
            rw [← h1] at hs
            exact absurd hs (by decide)
          | cons e t =>
            rw [hg, List.getLast?_cons_cons, ← hg] at hc
            rcases ih [] true c hc hs with h | ⟨_, hcon, _⟩
            · exact Or.inl (getLast?_cons_lift h)
            · exact Bool.noConfusion hcon
        · rw [if_neg hd2] at hc
          cases hg : hyphenSpaceGo [] false rest with
          | nil =>
            rw [hg] at hc
            have hc2 : some d = some c := hc
            injection hc2 with h1
            rw [← h1] at hs
            rw [hs] at hd
            exact absurd rfl hd
          | cons e t =>
            rw [hg, List.getLast?_cons_cons, ← hg] at hc
            rcases ih [] false c hc hs with h | ⟨_, _, hcon⟩
            · exact Or.inl (getLast?_cons_lift h)
            · exact Option.noConfusion hcon
    | false =>
      rw [if_neg Bool.false_ne_true] at hc
      by_cases hd2 : d = '-'
      · rw [if_pos hd2] at hc
        cases hg : hyphenSpaceGo [] true rest with
        | nil =>
          rw [hg] at hc
          injection hc with h1
          rw [← h1] at hs
          exact absurd hs (by decide)
        | cons e t =>
          rw [hg, List.getLast?_cons_cons, ← hg] at hc
          rcases ih [] true c hc hs with h | ⟨_, hcon, _⟩
          · exact Or.inl (getLast?_cons_lift h)
          · exact Bool.noConfusion hcon
      · rw [if_neg hd2] at hc
        by_cases hd : isSpc d = true
        · rw [if_pos hd] at hc
          rcases ih (d :: pending) false c hc hs with h | ⟨hrest, _, hp⟩
          · exact Or.inl (getLast?_cons_lift h)
          · subst hrest
            rw [List.head?_cons] at hp
            injection hp with h1
            rw [h1]
            exact Or.inl rfl
        · rw [if_neg hd] at hc
          rw [List.getLast?_append] at hc
          cases hg : hyphenSpaceGo [] false rest with
          | nil =>
            rw [hg] at hc
            have hc2 : some d = some c := hc
            injection hc2 with h1
            rw [← h1] at hs
            rw [hs] at hd
            exact absurd rfl hd
          | cons e t =>
            rw [hg] at hc
            cases hlast : (e :: t).getLast? with
            | none =>
              rw [List.getLast?_eq_none_iff] at hlast
              exact List.noConfusion hlast
            | some x =>
              have hc2 : (d :: e :: t).getLast? = some x := by
                rw [List.getLast?_cons_cons]
                exact hlast
              rw [hc2] at hc
              have hc3 : some x = some c := hc
              injection hc3 with h1
              rw [h1] at hlast
              have hc4 : (hyphenSpaceGo [] false rest).getLast? = some c := by
                rw [hg, hlast]
              rcases ih [] false c hc4 hs with h | ⟨_, _, hcon⟩
              · exact Or.inl (getLast?_cons_lift h)
              · exact Option.noConfusion hcon


theorem hyphenSpaceL_nolead {l : Str} (h : NoLead l) :
    NoLead (hyphenSpaceL l) := by
  intro c hc
  rw [hyphenSpaceL] at hc
  cases l with
  | nil =>
    rw [hyphenSpaceGo, if_neg Bool.false_ne_true] at hc
    exact Option.noConfusion hc
  | cons d rest =>
    have hd : isSpc d = false := h d rfl
    rw [hyphenSpaceGo, if_neg Bool.false_ne_true] at hc
    by_cases hd2 : d = '-'
    · rw [if_pos hd2] at hc
      injection hc with h1
      rw [← h1]
      decide
    · rw [if_neg hd2, if_neg (by rw [hd]; exact Bool.noConfusion)] at hc
      have hc2 : (d :: hyphenSpaceGo [] false rest).head? = some c := hc
      injection hc2 with h1
      rw [← h1]
      exact hd

theorem hyphenSpaceL_notrail {l : Str} (h : NoTrail l) :
    NoTrail (hyphenSpaceL l) := by
  intro c hc
  rw [hyphenSpaceL] at hc
  by_contra hs
  have hs' : isSpc c = true := by simpa using hs
  rcases hyphenSpaceGo_last l [] false c hc hs' with h1 | ⟨_, _, hcon⟩
  · rw [h c h1] at hs'
    exact Bool.noConfusion hs'
  · exact Option.noConfusion hcon

theorem collapseHyphensL_notrail {l : Str} (h : NoTrail l) :
    NoTrail (collapseHyphensL l) := by
  intro c hc
  rw [collapseHyphensL] at hc
  by_contra hs
  have hs' : isSpc c = true := by simpa using hs
  have h1 := collapseHyphensGo_last false l c hc hs'
  rw [h c h1] at hs'
  exact Bool.noConfusion hs'

theorem hyphenSpaceGo_id (l : Str) :
    NoSpHy l →
    ((∀ c, l.head? = some c → isSpc c = false) →
      hyphenSpaceGo [] true l = l) ∧
    (∀ pending, (pending = [] ∨ ∀ d, l.head? = some d → d ≠ '-') →
      hyphenSpaceGo pending false l = pending.reverse ++ l) := by
  induction l with
  | nil =>
    intro _
    constructor
    · intro _
      rw [hyphenSpaceGo, if_pos rfl]
    · intro pending _
      rw [hyphenSpaceGo, if_neg Bool.false_ne_true, List.append_nil]
  | cons d rest ih =>
    intro h
    have htail := List.Chain'.tail h
    have ihp := ih htail
    have hrest_nospc : d = '-' → ∀ e, rest.head? = some e → isSpc e = false := by
      intro hd2 e he
      cases rest with
      | nil => exact Option.noConfusion he
      | cons f r2 =>
        injection he with hef
        have h3 := (List.chain'_cons'.mp h).1 f rfl
        rw [← hef]
        by_contra hce
        exact h3.2 ⟨hd2, by simpa using hce⟩
    have hrest_nodash : isSpc d = true → ∀ e, rest.head? = some e → e ≠ '-' := by
      intro hd e he hcon
      cases rest with
      | nil => exact Option.noConfusion he
      | cons f r2 =>
        injection he with hef
        have h3 := (List.chain'_cons'.mp h).1 f rfl
        rw [← hef] at hcon
        exact h3.1 ⟨hd, hcon⟩
    constructor
    · intro hhead
      have hd : isSpc d = false := hhead d rfl
      rw [hyphenSpaceGo, if_pos rfl, if_neg (by rw [hd]; exact Bool.noConfusion)]
      by_cases hd2 : d = '-'
      · rw [if_pos hd2, ihp.1 (hrest_nospc hd2), hd2]
      · rw [if_neg hd2, ihp.2 [] (Or.inl rfl)]
        rfl
    · intro pending hp
      rw [hyphenSpaceGo, if_neg Bool.false_ne_true]
      by_cases hd2 : d = '-'
      · have hpnil : pending = [] := by
          rcases hp with h' | h'
          · exact h'
          · exact absurd hd2 (h' d rfl)
        subst hpnil
        rw [if_pos hd2, ihp.1 (hrest_nospc hd2), hd2]
        rfl
      · rw [if_neg hd2]
        by_cases hd : isSpc d = true
        · rw [if_pos hd, ihp.2 (d :: pending) (Or.inr (hrest_nodash hd))]
          rw [List.reverse_cons, List.append_assoc]
          rfl
        · rw [if_neg hd, ihp.2 [] (Or.inl rfl)]
          rfl

theorem hyphenSpaceL_eq_self {l : Str} (h : NoSpHy l) : hyphenSpaceL l = l := by
  rw [hyphenSpaceL, (hyphenSpaceGo_id l h).2 [] (Or.inl rfl)]
  rfl

theorem collapseSpacesL_allok {l : Str} (hj : ∀ c ∈ l, jOk c = true) :
    AllOk (collapseSpacesL l) := by
  intro c hc
  rw [collapseSpacesL] at hc
  rcases collapseSpacesGo_mem false l c hc with h | ⟨h1, h2⟩
  · rw [h]; decide
  · exact okCh_of_jOk (hj c h1) h2

theorem collapseHyphensL_allok {l : Str} (h : AllOk l) :
    AllOk (collapseHyphensL l) := by
  rw [collapseHyphensL]
  intro c hc
  exact h c (collapseHyphensGo_mem false l c hc)

theorem collapseHyphensL_nodbl {l : Str} (h : NoDbl l) :
    NoDbl (collapseHyphensL l) := by
  rw [collapseHyphensL]
  exact collapseHyphensGo_nodbl h false

theorem collapseHyphensL_nolead {l : Str} (h : NoLead l) :
    NoLead (collapseHyphensL l) := by
  rw [collapseHyphensL]
  intro c hc
  rw [collapseHyphensGo_head_false l] at hc
  exact h c hc

theorem hyphenSpaceL_allok {l : Str} (h : AllOk l) :
    AllOk (hyphenSpaceL l) := by
  intro c hc
  rw [hyphenSpaceL] at hc
  rcases hyphenSpaceGo_mem l [] false c hc with h1 | h1
  · exact absurd h1 (List.not_mem_nil c)
  · exact h c h1

theorem hyphenSpaceL_nodbl {l : Str} (h : NoDbl l) :
    NoDbl (hyphenSpaceL l) := by
  rw [hyphenSpaceL]
  exact hyphenSpaceGo_nodbl l [] false h (by decide) (Or.inl rfl)

theorem hyphenSpaceL_nosphy (l : Str) : NoSpHy (hyphenSpaceL l) := by
  rw [hyphenSpaceL]
  exact hyphenSpaceGo_nosphy l [] false
    (fun c hc => absurd hc (List.not_mem_nil c))

theorem clean_allok (x : Str) : AllOk (cleanCompanyL x) :=
  hyphenSpaceL_allok (collapseHyphensL_allok (fun c hc =>
    collapseSpacesL_allok (junkL_chars _) c (stripSp_subset _ hc)))

set_option maxHeartbeats 4000000 in
theorem clean_nodbl (x : Str) : NoDbl (cleanCompanyL x) := by
  rw [cleanCompanyL]
  exact hyphenSpaceL_nodbl (collapseHyphensL_nodbl
    (stripSp_chain' (collapseSpacesGo_nodbl false _)))

set_option maxHeartbeats 4000000 in
theorem clean_nosphy (x : Str) : NoSpHy (cleanCompanyL x) := by
  rw [cleanCompanyL]
  exact hyphenSpaceL_nosphy _

theorem clean_nolead (x : Str) : NoLead (cleanCompanyL x) :=
  hyphenSpaceL_nolead (collapseHyphensL_nolead (stripSp_noLead _))

theorem clean_notrail (x : Str) : NoTrail (cleanCompanyL x) :=
  hyphenSpaceL_notrail (collapseHyphensL_notrail (stripSp_noTrail _))

theorem cleanCompanyL_fixed {o : Str} (hA : AllOk o) (hD : NoDbl o)
    (hS : NoSpHy o) (hL : NoLead o) (hT : NoTrail o)
    (h1 : stripLegalSuffixL o = o) (h2 : descrSplitL o = o)
    (h3 : collapseHyphensL o = o) : cleanCompanyL o = o := by
  have e1 : stripSp o = o := stripSp_eq_self hL hT
  have ecm : commaSplitL o = o := by
    rw [commaSplitL, if_neg]
    intro hcon
    have hmem : ',' ∈ o := List.elem_iff.mp hcon
    exact absurd (hA ',' hmem) (by decide)
  have ej : junkL o = o := junkL_eq_self hA
  have ecs : collapseSpacesL o = o := by
    rw [collapseSpacesL]
    exact collapseSpacesGo_eq_self (allOk_spPlain hA) hD
  have eh : hyphenSpaceL o = o := hyphenSpaceL_eq_self hS
  rw [cleanCompanyL, e1, ecm, h2, h1, ej, ecs, e1, h3, eh]


/-- C3: the claimed idempotence of `clean_company_name` is false. One
counterexample per failure mode: (a) the end-anchored legal-suffix
regex removes only the last suffix word per pass, so "Foo Corp Inc"
cleans to "Foo Corp", which cleans again to "Foo"; (b) junk-character
replacement can expose a parent-company descriptor, so "X@a b" cleans
to "X a b", which the descriptor split of the second pass cuts to "X";
(c) the whitespace-around-hyphen substitution can create a fresh hyphen
run after hyphen runs were already collapsed, so "a- -b" cleans to
"a--b", which cleans again to "a-b". -/
theorem c3_counterexample :
    clean_company_name (clean_company_name "Foo Corp Inc") ≠
      clean_company_name "Foo Corp Inc" ∧
    clean_company_name "Foo Corp Inc" = "Foo Corp" ∧
    clean_company_name (clean_company_name "Foo Corp Inc") = "Foo" ∧
    clean_company_name (clean_company_name "X@a b") ≠
      clean_company_name "X@a b" ∧
    clean_company_name "X@a b" = "X a b" ∧
    clean_company_name (clean_company_name "X@a b") = "X" ∧
    clean_company_name (clean_company_name "a- -b") ≠
      clean_company_name "a- -b" ∧
    clean_company_name "a- -b" = "a--b" ∧
    clean_company_name (clean_company_name "a- -b") = "a-b" := by
  decide

set_option maxHeartbeats 4000000 in
/-- C3 (amended): `clean_company_name` is idempotent exactly on the
inputs whose cleaned form is already a fixed point of the three stages
that can still act on cleaned output - legal-suffix stripping,
parent-company-descriptor splitting, and hyphen-run collapsing. The
cleaned string always consists of alphanumerics, plain spaces and
hyphens only, with no space run, no leading or trailing space and no
space adjacent to a hyphen, so every other stage (strip, comma split,
junk replacement, whitespace collapsing, whitespace-around-hyphen
normalization) is provably the identity on it, and under the three
fixed-point hypotheses a second application changes nothing. -/
theorem c3_clean_idempotent_amended (s : String)
    (h1 : stripLegalSuffixL (clean_company_name s).data =
      (clean_company_name s).data)
    (h2 : descrSplitL (clean_company_name s).data =
      (clean_company_name s).data)
    (h3 : collapseHyphensL (clean_company_name s).data =
      (clean_company_name s).data) :
    clean_company_name (clean_company_name s) = clean_company_name s := by
  have hgen2 : ∀ l : Str, clean_company_name (⟨l⟩ : String) =
      (⟨cleanCompanyL l⟩ : String) := fun l => rfl
  have hmk : clean_company_name s = (⟨cleanCompanyL s.data⟩ : String) := rfl
  have hdata : (clean_company_name s).data = cleanCompanyL s.data := by
    rw [hmk]
  rw [hdata] at h1 h2 h3
  have hfix : cleanCompanyL (cleanCompanyL s.data) = cleanCompanyL s.data :=
    cleanCompanyL_fixed (clean_allok s.data) (clean_nodbl s.data)
      (clean_nosphy s.data) (clean_nolead s.data) (clean_notrail s.data)
      h1 h2 h3
  rw [hmk, hgen2 (cleanCompanyL s.data), hfix]

theorem c3_clean_idempotent_amended_witness :
    stripLegalSuffixL (clean_company_name "Foo Packaging").data =
      (clean_company_name "Foo Packaging").data ∧
    descrSplitL (clean_company_name "Foo Packaging").data =
      (clean_company_name "Foo Packaging").data ∧
    collapseHyphensL (clean_company_name "Foo Packaging").data =
      (clean_company_name "Foo Packaging").data ∧
    clean_company_name (clean_company_name "Foo Packaging") =
      clean_company_name "Foo Packaging" :=
  ⟨by decide, by decide, by decide,
   c3_clean_idempotent_amended "Foo Packaging" (by decide) (by decide)
     (by decide)⟩


/-! ## Character classes of generated candidate URLs (claim C6) -/

/-- Lowercase ASCII alphanumeric: the characters a cleaned, lowered
company token can consist of. -/
def lowAlnum (c : Char) : Bool := isAsciiDigit c || ('a' ≤ c && c ≤ 'z')

theorem char_toNat_le {a b : Char} (h : a ≤ b) : a.toNat ≤ b.toNat := by
  rw [Char.le_def, UInt32.le_def, BitVec.le_def] at h
  exact h

theorem alnum_toNat {c : Char} (h : isAsciiAlnum c = true) :
    (48 ≤ c.toNat ∧ c.toNat ≤ 57) ∨ (65 ≤ c.toNat ∧ c.toNat ≤ 90) ∨
    (97 ≤ c.toNat ∧ c.toNat ≤ 122) := by
  rw [isAsciiAlnum, isAsciiAlpha, isAsciiDigit] at h
  simp only [Bool.or_eq_true, Bool.and_eq_true, decide_eq_true_eq] at h
  rcases h with (⟨h1, h2⟩ | ⟨h1, h2⟩) | ⟨h1, h2⟩
  · exact Or.inr (Or.inr ⟨char_toNat_le h1, char_toNat_le h2⟩)
  · exact Or.inr (Or.inl ⟨char_toNat_le h1, char_toNat_le h2⟩)
  · exact Or.inl ⟨char_toNat_le h1, char_toNat_le h2⟩

theorem lowAlnum_toNat {c : Char} (h : lowAlnum c = true) :
    (48 ≤ c.toNat ∧ c.toNat ≤ 57) ∨ (97 ≤ c.toNat ∧ c.toNat ≤ 122) := by
  rw [lowAlnum, isAsciiDigit] at h
  simp only [Bool.or_eq_true, Bool.and_eq_true, decide_eq_true_eq] at h
  rcases h with ⟨h1, h2⟩ | ⟨h1, h2⟩
  · exact Or.inl ⟨char_toNat_le h1, char_toNat_le h2⟩
  · exact Or.inr ⟨char_toNat_le h1, char_toNat_le h2⟩

theorem toLower_eq_self_of {c : Char} (h : ¬(65 ≤ c.toNat ∧ c.toNat ≤ 90)) :
    Char.toLower c = c := by
  show (if c.toNat ≥ 65 ∧ c.toNat ≤ 90 then Char.ofNat (c.toNat + 32) else c)
      = c
  rw [if_neg]
  intro hc
  exact h ⟨hc.1, hc.2⟩

theorem lowAlnum_toLower_fix {c : Char} (h : lowAlnum c = true) :
    Char.toLower c = c := by
  apply toLower_eq_self_of
  rcases lowAlnum_toNat h with ⟨h1, h2⟩ | ⟨h1, h2⟩ <;> omega

theorem toLower_lowAlnum {c : Char} (h : isAsciiAlnum c = true) :
    lowAlnum (Char.toLower c) = true := by
  have hb := alnum_toNat h
  obtain ⟨n, hn⟩ : ∃ n, c.toNat = n := ⟨_, rfl⟩
  have hc : c = Char.ofNat n := by rw [← hn, Char.ofNat_toNat]
  rw [hn] at hb
  rw [hc]
  rcases hb with ⟨h1, h2⟩ | ⟨h1, h2⟩ | ⟨h1, h2⟩ <;>
    (interval_cases n <;> decide)

theorem map_toLower_fix {l : Str} (h : ∀ c ∈ l, Char.toLower c = c) :
    l.map Char.toLower = l := by
  induction l with
  | nil => rfl
  | cons c rest ih =>
    rw [List.map_cons, h c (List.mem_cons_self c rest),
      ih (fun d hd => h d (List.mem_cons_of_mem c hd))]

theorem tokenizeGo_chars :
    ∀ (s cur : Str), ∀ t ∈ tokenizeGo cur s, ∀ c ∈ t, c ∈ cur ∨ c ∈ s := by
  intro s
  induction s with
  | nil =>
    intro cur t ht c hc
    rw [tokenizeGo] at ht
    by_cases hce : cur.isEmpty
    · rw [if_pos hce] at ht
      exact absurd ht (List.not_mem_nil t)
    · rw [if_neg hce] at ht
      rcases List.mem_singleton.mp ht with rfl
      exact Or.inl (List.mem_reverse.mp hc)
  | cons d rest ih =>
    intro cur t ht c hc
    rw [tokenizeGo] at ht
    by_cases hsep : isSepCh d = true
    · rw [if_pos hsep] at ht
      by_cases hce : cur.isEmpty
      · rw [if_pos hce] at ht
        rcases ih [] t ht c hc with h | h
        · exact absurd h (List.not_mem_nil c)
        · exact Or.inr (List.mem_cons_of_mem d h)
      · rw [if_neg hce] at ht
        rcases List.mem_cons.mp ht with rfl | hmem
        · exact Or.inl (List.mem_reverse.mp hc)
        · rcases ih [] t hmem c hc with h | h
          · exact absurd h (List.not_mem_nil c)
          · exact Or.inr (List.mem_cons_of_mem d h)
    · rw [if_neg hsep] at ht
      rcases ih (d :: cur) t ht c hc with h | h
      · rcases List.mem_cons.mp h with rfl | h2
        · exact Or.inr (List.mem_cons_self c rest)
        · exact Or.inl h2
      · exact Or.inr (List.mem_cons_of_mem d h)

theorem tokensOfName_chars (company : String) :
    ∀ t ∈ tokensOfName company, ∀ c ∈ t.data, lowAlnum c = true := by
  intro t ht c hc
  have hsep := (tokensOfName_spec company t ht).2 c hc
  rw [tokensOfName, List.mem_map] at ht
  obtain ⟨l, hl, rfl⟩ := ht
  rcases tokenizeGo_chars _ [] l hl c hc with h | h
  · exact absurd h (List.not_mem_nil c)
  · rw [List.mem_map] at h
    obtain ⟨e, he, rfl⟩ := h
    have hok := clean_allok company.data e he
    rw [okCh] at hok
    simp only [Bool.or_eq_true, decide_eq_true_eq] at hok
    rcases hok with (h1 | h1) | h1
    · exact toLower_lowAlnum h1
    · subst h1
      exfalso
      rw [show Char.toLower (' ') = ' ' from by decide] at hsep
      exact absurd hsep (by decide)
    · subst h1
      exfalso
      rw [show Char.toLower ('-') = '-' from by decide] at hsep
      exact absurd hsep (by decide)

theorem joinAll_chars {l : List String} :
    ∀ c ∈ (joinAll l).data, ∃ x ∈ l, c ∈ x.data := by
  intro c hc
  rw [joinAll_data, List.mem_flatten] at hc
  obtain ⟨d, hd, hcd⟩ := hc
  rw [List.mem_map] at hd
  obtain ⟨x, hx, rfl⟩ := hd
  exact ⟨x, hx, hcd⟩

theorem dashJoin_chars : ∀ (l : List String),
    ∀ c ∈ (dashJoin l).data, c = '-' ∨ ∃ x ∈ l, c ∈ x.data := by
  intro l
  induction l with
  | nil =>
    intro c hc
    exact absurd hc (List.not_mem_nil c)
  | cons x rest ih =>
    intro c hc
    cases rest with
    | nil =>
      rw [show dashJoin [x] = x from rfl] at hc
      exact Or.inr ⟨x, List.mem_cons_self x [], hc⟩
    | cons y rest2 =>
      rw [dashJoin_cons2_data] at hc
      rcases List.mem_append.mp hc with h | h
      · exact Or.inr ⟨x, List.mem_cons_self x _, h⟩
      · rcases List.mem_cons.mp h with rfl | h2
        · exact Or.inl rfl
        · rcases ih c h2 with h3 | ⟨z, hz, hcz⟩
          · exact Or.inl h3
          · exact Or.inr ⟨z, List.mem_cons_of_mem x hz, hcz⟩

theorem stripBothHyphens_subset {s : String} :
    ∀ c ∈ (stripBothHyphens s).data, c ∈ s.data := by
  intro c hc
  rw [stripBothHyphens] at hc
  rw [List.mem_reverse] at hc
  have hc1 := List.dropWhile_subset (fun c => c = '-') hc
  rw [List.mem_reverse] at hc1
  exact List.dropWhile_subset _ hc1

theorem acronym_chars {company a : String}
    (hacr : acronymOf (tokensOfName company) = some a) :
    ∀ c ∈ a.data, lowAlnum c = true := by
  intro c hc
  rw [acronymOf] at hacr
  split at hacr
  · rw [Option.some.injEq] at hacr
    rw [← hacr] at hc
    obtain ⟨x, hx, hcx⟩ := joinAll_chars c hc
    exact tokensOfName_chars company x (List.take_subset _ _ hx) c hcx
  · exact Option.noConfusion hacr

theorem candOut_chars {company : String} :
    ∀ dom ∈ candOutOf (tokensOfName company),
      (∀ c ∈ dom.data, lowAlnum c = true ∨ c = '-') ∧ dom ≠ "" := by
  intro dom hdom
  have hd0 := mem_dedupPO_mem hdom
  rw [List.mem_filter] at hd0
  obtain ⟨hdm, hdne0⟩ := hd0
  refine ⟨?_, by simpa using hdne0⟩
  intro c hc
  rw [List.mem_map] at hdm
  obtain ⟨cand, hcand, rfl⟩ := hdm
  have hcc : c ∈ cand.data := stripBothHyphens_subset c hc
  obtain ⟨tl0, htl0, -, -, hcj⟩ := mem_candidatesOf hcand
  have htok : ∀ x ∈ tl0.filter (fun x => x ≠ "" && !genericTail.contains x),
      ∀ d ∈ x.data, lowAlnum d = true := by
    intro x hx d hd
    rw [List.mem_filter] at hx
    rcases mem_tokenListsOf htl0 hx.1 with hxt | hxa
    · exact tokensOfName_chars company x hxt d hd
    · exact acronym_chars hxa d hd
  rcases hcj with rfl | rfl
  · obtain ⟨x, hx, hcx⟩ := joinAll_chars c hcc
    exact Or.inl (htok x hx c hcx)
  · rcases dashJoin_chars _ c hcc with h | ⟨x, hx, hcx⟩
    · exact Or.inr h
    · exact Or.inl (htok x hx c hcx)



/-- The eleven host suffixes the pattern loop appends to a stem: the
seven TLDs plus the four compound `usa`/`us` forms. -/
def sfxList : List String :=
  tldList ++ ["usa.com", "us.com", "-usa.com", "-us.com"]

theorem mem_patternsOf {co : List String} {A : String}
    (h : A ∈ patternsOf co) :
    ∃ dom scheme w sfx,
      dom ∈ co ∧ scheme ∈ (["https://", "http://"] : List String) ∧
      w ∈ (["", "www."] : List String) ∧ sfx ∈ sfxList ∧
      A = scheme ++ w ++ dom ++ sfx := by
  rw [patternsOf, List.mem_flatMap] at h
  obtain ⟨dom, hdom, h⟩ := h
  rw [List.mem_flatMap] at h
  obtain ⟨scheme, hscheme, h⟩ := h
  rw [List.mem_flatMap] at h
  obtain ⟨w, hw, h⟩ := h
  rw [List.mem_append] at h
  rcases h with h | h
  · rw [List.mem_map] at h
    obtain ⟨tld, htld, rfl⟩ := h
    exact ⟨dom, scheme, w, tld, hdom, hscheme, hw,
      List.mem_append_left _ htld, rfl⟩
  · rcases List.mem_cons.mp h with rfl | h
  
    · exact ⟨dom, scheme, w, "usa.com", hdom, hscheme, hw, by decide, rfl⟩
    rcases List.mem_cons.mp h with rfl | h
    · exact ⟨dom, scheme, w, "us.com", hdom, hscheme, hw, by decide, rfl⟩
    rcases List.mem_cons.mp h with rfl | h
    · exact ⟨dom, scheme, w, "-usa.com", hdom, hscheme, hw, by decide, rfl⟩
    rcases List.mem_cons.mp h with rfl | h
    · exact ⟨dom, scheme, w, "-us.com", hdom, hscheme, hw, by decide, rfl⟩
    exact absurd h (List.not_mem_nil A)

theorem pattern_parts {company A : String} (h : A ∈ try_common_urls company) :
    ∃ dom scheme w sfx,
      dom ∈ candOutOf (tokensOfName company) ∧
      scheme ∈ (["https://", "http://"] : List String) ∧
      w ∈ (["", "www."] : List String) ∧ sfx ∈ sfxList ∧
      A = scheme ++ w ++ dom ++ sfx := by
  rw [try_common_urls] at h
  exact mem_patternsOf (mem_dedupPO_mem (List.take_subset _ _ h))

theorem sfxList_chars : ∀ sfx ∈ sfxList, ∀ c ∈ sfx.data,
    Char.toLower c = c ∧ c ≠ '/' ∧ c ≠ '?' ∧ c ≠ '#' ∧ c ≠ ':' := by
  decide

theorem lowAlnum_ne {c : Char} (h : lowAlnum c = true) :
    c ≠ '/' ∧ c ≠ '?' ∧ c ≠ '#' ∧ c ≠ ':' ∧ c ≠ '.' := by
  refine ⟨?_, ?_, ?_, ?_, ?_⟩ <;>
    (intro hh; rw [hh] at h; exact absurd h (by decide))

theorem pattern_data {scheme w dom sfx : String} :
    (scheme ++ w ++ dom ++ sfx).data
      = scheme.data ++ (w.data ++ (dom.data ++ sfx.data)) := by
  rw [String.data_append, String.data_append, String.data_append,
    List.append_assoc, List.append_assoc]

theorem url_lower_fix {company A : String} (h : A ∈ try_common_urls company) :
    lowerStr A = A ∧ A.data.map Char.toLower = A.data := by
  obtain ⟨dom, scheme, w, sfx, hdom, hs, hw, hsfx, rfl⟩ := pattern_parts h
  have hdomc := (candOut_chars dom hdom).1
  have hfix : ∀ c ∈ (scheme ++ w ++ dom ++ sfx).data, Char.toLower c = c := by
    intro c hc
    rw [pattern_data] at hc
    have hhttps : ∀ d ∈ ("https://" : String).data, Char.toLower d = d := by
      decide
    have hhttp : ∀ d ∈ ("http://" : String).data, Char.toLower d = d := by
      decide
    have hwww : ∀ d ∈ ("www." : String).data, Char.toLower d = d := by
      decide
    rcases List.mem_append.mp hc with hc | hc
    · rcases List.mem_cons.mp hs with rfl | hs2
      · exact hhttps c hc
      rcases List.mem_cons.mp hs2 with rfl | hs3
      · exact hhttp c hc
      exact absurd hs3 (List.not_mem_nil scheme)
    rcases List.mem_append.mp hc with hc | hc
    · rcases List.mem_cons.mp hw with rfl | hw2
      · exact absurd hc (List.not_mem_nil c)
      rcases List.mem_cons.mp hw2 with rfl | hw3
      · exact hwww c hc
      exact absurd hw3 (List.not_mem_nil w)
    rcases List.mem_append.mp hc with hc | hc
    · rcases hdomc c hc with h1 | h1
      · exact lowAlnum_toLower_fix h1
      · rw [h1]; decide
    · exact (sfxList_chars sfx hsfx c hc).1
  constructor
  · show (⟨(scheme ++ w ++ dom ++ sfx).data.map Char.toLower⟩ : String) = _
    rw [map_toLower_fix hfix]
  · exact map_toLower_fix hfix

theorem no_slash_tail {company A : String} (h : A ∈ try_common_urls company) :
    ∃ scheme t, (scheme = "https://" ∨ scheme = "http://")
      ∧ A.data = scheme.data ++ t ∧ '/' ∉ t := by
  obtain ⟨dom, scheme, w, sfx, hdom, hs, hw, hsfx, rfl⟩ := pattern_parts h
  have hdomc := (candOut_chars dom hdom).1
  refine ⟨scheme, w.data ++ (dom.data ++ sfx.data), ?_, pattern_data, ?_⟩
  · rcases List.mem_cons.mp hs with rfl | hs2
    · exact Or.inl rfl
    rcases List.mem_cons.mp hs2 with rfl | hs3
    · exact Or.inr rfl
    exact absurd hs3 (List.not_mem_nil scheme)
  · intro hmem
    rcases List.mem_append.mp hmem with hc | hc
    · rcases List.mem_cons.mp hw with rfl | hw2
      · exact absurd hc (List.not_mem_nil _)
      rcases List.mem_cons.mp hw2 with rfl | hw3
      · exact absurd hc (by decide)
      exact absurd hw3 (List.not_mem_nil w)
    rcases List.mem_append.mp hc with hc | hc
    · rcases hdomc _ hc with h1 | h1
      · exact (lowAlnum_ne h1).1 rfl
      · exact absurd h1 (by decide)
    · exact ((sfxList_chars sfx hsfx _ hc).2.1) rfl

theorem isSubL_chars : ∀ (h : Str) {n : Str}, isSubL n h = true →
    ∀ c ∈ n, c ∈ h := by
  intro h
  induction h with
  | nil =>
    intro n hs c hc
    rw [isSubL, List.isPrefixOf_iff_prefix, List.prefix_nil] at hs
    subst hs
    exact absurd hc (List.not_mem_nil c)
  | cons d rest ih =>
    intro n hs c hc
    rw [isSubL, Bool.or_eq_true] at hs
    rcases hs with hs | hs
    · rw [List.isPrefixOf_iff_prefix] at hs
      exact hs.sublist.subset hc
    · exact List.mem_cons_of_mem d (ih hs c hc)

theorem isSubL_false_of_missing {n t : Str} {c : Char} (hc : c ∈ n)
    (hnt : c ∉ t) : isSubL n t = false := by
  cases hb : isSubL n t with
  | false => rfl
  | true => exact absurd (isSubL_chars t hb c hc) hnt

theorem isSubL_append_skip : ∀ (pre : Str) {d : Char} {m t : Str},
    (∀ c ∈ pre, (d == c) = false) →
    isSubL (d :: m) (pre ++ t) = isSubL (d :: m) t := by
  intro pre
  induction pre with
  | nil => intro d m t _; rfl
  | cons x xs ih =>
    intro d m t h
    rw [List.cons_append, isSubL,
      show ((d :: m).isPrefixOf (x :: (xs ++ t)))
        = ((d == x) && m.isPrefixOf (xs ++ t)) from rfl,
      h x (List.mem_cons_self x xs), Bool.false_and, Bool.false_or]
    exact ih (fun c hc => h c (List.mem_cons_of_mem x hc))

theorem url_no_dotslash {company A : String}
    (h : A ∈ try_common_urls company) :
    isSubstrOf ".com/" (lowerStr A) = false
    ∧ isSubstrOf ".net/" (lowerStr A) = false
    ∧ isSubstrOf ".org/" (lowerStr A) = false := by
  rw [(url_lower_fix h).1]
  obtain ⟨scheme, tail, hsch, hdata, hslash⟩ := no_slash_tail h
  have hskip : ∀ m : Str, isSubL ('.' :: m) A.data = isSubL ('.' :: m) tail := by
    intro m
    rw [hdata]
    apply isSubL_append_skip
    rcases hsch with rfl | rfl
    · decide
    · decide
  refine ⟨?_, ?_, ?_⟩ <;>
    (rw [isSubstrOf]
     rw [show (String.data _) = '.' :: _ from rfl, hskip]
     exact isSubL_false_of_missing (by decide) hslash)


theorem takeWhile_all {p : Char → Bool} :
    ∀ {l : Str}, (∀ c ∈ l, p c = true) → l.takeWhile p = l := by
  intro l
  induction l with
  | nil => intro _; rfl
  | cons c rest ih =>
    intro h
    rw [List.takeWhile_cons, if_pos (h c (List.mem_cons_self c rest)),
      ih (fun d hd => h d (List.mem_cons_of_mem c hd))]

theorem takeWhile_append_all {p : Char → Bool} :
    ∀ (l1 : Str) {l2 : Str}, (∀ c ∈ l1, p c = true) →
      (l1 ++ l2).takeWhile p = l1 ++ l2.takeWhile p := by
  intro l1
  induction l1 with
  | nil => intro l2 _; rfl
  | cons c rest ih =>
    intro l2 h
    rw [List.cons_append, List.takeWhile_cons,
      if_pos (h c (List.mem_cons_self c rest)), List.cons_append,
      ih (fun d hd => h d (List.mem_cons_of_mem c hd))]

theorem netlocOfL_https (t : Str) :
    netlocOfL ("https://".data ++ t)
      = t.takeWhile (fun c => !(c = '/' || c = '?' || c = '#')) := by
  have hpre : ("https://".data ++ t).takeWhile (fun c => c ≠ ':')
      = "https".data := by
    rw [show "https://".data ++ t
        = "https".data ++ (':' :: '/' :: '/' :: t) from rfl]
    rw [takeWhile_append_all _ (by decide), List.takeWhile_cons,
      if_neg (by decide), List.append_nil]
  simp only [netlocOfL]
  rw [hpre]
  rw [if_pos ?side]
  case side =>
    refine ⟨?_, by decide, rfl, by decide⟩
    simp only [List.length_append, List.length_cons, List.length_nil]
    omega
  rw [show ("https".data : Str).length + 1 = 6 from rfl]
  rw [show ("https://".data ++ t).drop 6 = '/' :: '/' :: t from rfl]
  rfl

theorem netlocOfL_http (t : Str) :
    netlocOfL ("http://".data ++ t)
      = t.takeWhile (fun c => !(c = '/' || c = '?' || c = '#')) := by
  have hpre : ("http://".data ++ t).takeWhile (fun c => c ≠ ':')
      = "http".data := by
    rw [show "http://".data ++ t
        = "http".data ++ (':' :: '/' :: '/' :: t) from rfl]
    rw [takeWhile_append_all _ (by decide), List.takeWhile_cons,
      if_neg (by decide), List.append_nil]
  simp only [netlocOfL]
  rw [hpre]
  rw [if_pos ?side]
  case side =>
    refine ⟨?_, by decide, rfl, by decide⟩
    simp only [List.length_append, List.length_cons, List.length_nil]
    omega
  rw [show ("http".data : Str).length + 1 = 5 from rfl]
  rw [show ("http://".data ++ t).drop 5 = '/' :: '/' :: t from rfl]
  rfl

theorem sfx_head : ∀ sfx ∈ sfxList, ∀ c, sfx.data.head? = some c →
    c = '.' ∨ c = 'u' ∨ c = '-' := by
  decide

theorem sfx_head_dot : ∀ sfx ∈ sfxList, sfx.data.head? = some '.' →
    sfx ∈ tldList := by
  decide

theorem www_prefix_cases {dom sfx : String}
    (hdomc : ∀ c ∈ dom.data, lowAlnum c = true ∨ c = '-') (hne : dom ≠ "")
    (hsfx : sfx ∈ sfxList)
    (hpre : "www.".data.isPrefixOf (dom.data ++ sfx.data) = true) :
    dom = "www" ∧ sfx ∈ tldList := by
  rw [List.isPrefixOf_iff_prefix] at hpre
  obtain ⟨r, hr⟩ := hpre
  rcases hd : dom.data with - | ⟨c1, d1⟩
  · exact absurd ((string_eq_empty_iff_data dom).mpr hd) hne
  rw [hd] at hr
  rcases d1 with - | ⟨c2, d2⟩
  · simp only [List.cons_append, List.nil_append] at hr
    injection hr with h1 hr2
    have := sfx_head sfx hsfx 'w' (by rw [← hr2]; rfl)
    rcases this with h | h | h <;> exact absurd h (by decide)
  rcases d2 with - | ⟨c3, d3⟩
  · simp only [List.cons_append, List.nil_append] at hr
    injection hr with h1 hr2
    injection hr2 with h2 hr3
    have := sfx_head sfx hsfx 'w' (by rw [← hr3]; rfl)
    rcases this with h | h | h <;> exact absurd h (by decide)
  rcases d3 with - | ⟨c4, d4⟩
  · simp only [List.cons_append, List.nil_append] at hr
    injection hr with h1 hr2
    injection hr2 with h2 hr3
    injection hr3 with h3 hr4
    have hdot : sfx.data.head? = some '.' := by rw [← hr4]; rfl
    constructor
    · calc dom = (⟨dom.data⟩ : String) := rfl
        _ = "www" := by rw [hd, ← h1, ← h2, ← h3]
    · exact sfx_head_dot sfx hsfx hdot
  · simp only [List.cons_append, List.nil_append] at hr
    injection hr with h1 hr2
    injection hr2 with h2 hr3
    injection hr3 with h3 hr4
    injection hr4 with h4 hr5
    have hc4 : c4 ∈ dom.data := by
      rw [hd]
      exact List.mem_cons_of_mem _ (List.mem_cons_of_mem _
        (List.mem_cons_of_mem _ (List.mem_cons_self _ _)))
    rcases hdomc c4 hc4 with h | h
    · rw [← h4] at h
      exact absurd h (by decide)
    · rw [← h4] at h
      exact absurd h (by decide)

theorem sfx_core : ∀ sfx ∈ sfxList,
    ∃ sc ∈ (["", "usa", "us", "-usa", "-us"] : List String),
      sfx.data.takeWhile (fun c => c ≠ '.') = sc.data := by
  decide

theorem tld_strip_core : ∀ sfx ∈ tldList,
    (("www".data ++ sfx.data).drop 4).takeWhile (fun c => c ≠ '.')
      ∈ (["com", "net", "org", "io", "co", "us", "info"].map
          String.data : List Str) := by
  decide


theorem domainCoreL_unfold (u : Str) (hm : u.map Char.toLower = u) :
    domainCoreL u
      = (if "www.".data.isPrefixOf (netlocOfL u) then (netlocOfL u).drop 4
         else netlocOfL u).takeWhile (fun c => c ≠ '.') := by
  simp only [domainCoreL]
  rw [hm]

theorem core_pattern {company A : String} (h : A ∈ try_common_urls company) :
    ∃ dom, dom ∈ candOutOf (tokensOfName company) ∧
      ((∃ sc ∈ (["", "usa", "us", "-usa", "-us"] : List String),
          (domainCore (lowerStr A)).data = dom.data ++ sc.data)
       ∨ (dom = "www"
          ∧ (domainCore (lowerStr A)).data
              ∈ (["com", "net", "org", "io", "co", "us", "info"].map
                  String.data : List Str))) := by
  obtain ⟨dom, scheme, w, sfx, hdom, hs, hw, hsfx, heq⟩ := pattern_parts h
  have hmap : A.data.map Char.toLower = A.data := (url_lower_fix h).2
  have hdomc := (candOut_chars dom hdom).1
  have hdne := (candOut_chars dom hdom).2
  refine ⟨dom, hdom, ?_⟩
  have e0 : (domainCore (lowerStr A)).data
      = domainCoreL (A.data.map Char.toLower) := rfl
  rw [hmap, domainCoreL_unfold A.data hmap] at e0
  have hstop : ∀ c ∈ w.data ++ (dom.data ++ sfx.data),
      (!(c = '/' || c = '?' || c = '#')) = true := by
    have hwww : ∀ d ∈ ("www." : String).data,
        (!(d = '/' || d = '?' || d = '#')) = true := by decide
    intro c hc
    rcases List.mem_append.mp hc with hc | hc
    · rcases List.mem_cons.mp hw with rfl | hw2
      · exact absurd hc (List.not_mem_nil c)
      rcases List.mem_cons.mp hw2 with rfl | hw3
      · exact hwww c hc
      exact absurd hw3 (List.not_mem_nil w)
    rcases List.mem_append.mp hc with hc | hc
    · rcases hdomc c hc with h1 | h1
      · obtain ⟨ha, hb, hcq, -⟩ := lowAlnum_ne h1
        simp [ha, hb, hcq]
      · rw [h1]; decide
    · obtain ⟨-, ha, hb, hcq, -⟩ := sfxList_chars sfx hsfx c hc
      simp [ha, hb, hcq]
  have e1 : netlocOfL A.data = w.data ++ (dom.data ++ sfx.data) := by
    rw [heq, pattern_data]
    rcases List.mem_cons.mp hs with rfl | hs2
    · rw [netlocOfL_https, takeWhile_all hstop]
    rcases List.mem_cons.mp hs2 with rfl | hs3
    · rw [netlocOfL_http, takeWhile_all hstop]
    exact absurd hs3 (List.not_mem_nil scheme)
  rw [e1] at e0
  have hdnodot : ∀ c ∈ dom.data, (decide (c ≠ '.')) = true := by
    intro c hc
    rcases hdomc c hc with h1 | h1
    · exact decide_eq_true (lowAlnum_ne h1).2.2.2.2
    · rw [h1]; decide
  rcases List.mem_cons.mp hw with rfl | hw2
  · -- w = ""
    rw [List.nil_append] at e0
    by_cases hpp : "www.".data.isPrefixOf (dom.data ++ sfx.data) = true
    · obtain ⟨hdw, htld⟩ := www_prefix_cases hdomc hdne hsfx hpp
      rw [if_pos hpp] at e0
      right
      refine ⟨hdw, ?_⟩
      rw [e0, hdw, ← String.data_append]
      rw [String.data_append]
      exact tld_strip_core sfx htld
    · rw [if_neg hpp] at e0
      left
      obtain ⟨sc, hscm, hsceq⟩ := sfx_core sfx hsfx
      refine ⟨sc, hscm, ?_⟩
      rw [e0, takeWhile_append_all _ hdnodot, hsceq]
  rcases List.mem_cons.mp hw2 with rfl | hw3
  · -- w = "www."
    have hpp : "www.".data.isPrefixOf
        (("www." : String).data ++ (dom.data ++ sfx.data)) = true := by
      rw [List.isPrefixOf_iff_prefix]
      exact ⟨dom.data ++ sfx.data, rfl⟩
    rw [if_pos hpp] at e0
    rw [show (4 : Nat) = (("www." : String).data).length from rfl,
      List.drop_left] at e0
    left
    obtain ⟨sc, hscm, hsceq⟩ := sfx_core sfx hsfx
    refine ⟨sc, hscm, ?_⟩
    rw [e0, takeWhile_append_all _ hdnodot, hsceq]
  exact absurd hw3 (List.not_mem_nil w)

end Leadgen
